import Mathlib

/-!
Verification development for the AuraVerse JSON categorisation core.

The Python modules `CatagorisingJSON.py` and `Save_Classified_File.py` are
shallowly embedded below.  JSON values are modelled by the mutual inductive
types `Json`/`JList`/`JFields` (Python dicts become insertion-ordered field
lists, numbers are modelled as integers; floating-point literals and non-JSON
Python objects are outside the embedding).  Python `dict`/`Counter`
accumulators are modelled as insertion-ordered association lists, mirroring
CPython's guaranteed dict ordering.  Floats produced by true division are
modelled as rationals.
-/

mutual

/-- JSON values: the data the pipeline operates on. -/
inductive Json where
  | null : Json
  | bool (b : Bool) : Json
  | num (n : Int) : Json
  | str (s : String) : Json
  | arr (elems : JList) : Json
  | obj (fields : JFields) : Json

/-- A list of JSON values (elements of a JSON array). -/
inductive JList where
  | nil : JList
  | cons (hd : Json) (tl : JList) : JList

/-- Insertion-ordered fields of a JSON object (a Python dict). -/
inductive JFields where
  | nil : JFields
  | cons (key : String) (val : Json) (tl : JFields) : JFields

end

/-- Build a `JList` from an ordinary list (for writing concrete values). -/
def JList.ofList : List Json → JList
  | [] => .nil
  | x :: xs => .cons x (JList.ofList xs)

/-- Build `JFields` from an ordinary association list. -/
def JFields.ofList : List (String × Json) → JFields
  | [] => .nil
  | (k, v) :: xs => .cons k v (JFields.ofList xs)

/-- Concrete JSON array from a list literal. -/
def jarr (l : List Json) : Json := .arr (JList.ofList l)

/-- Concrete JSON object from an association-list literal. -/
def jobj (l : List (String × Json)) : Json := .obj (JFields.ofList l)

/-- Python `dict.get`: first field with the given key. -/
def jget : JFields → String → Option Json
  | .nil, _ => none
  | .cons a v rest, k => if a = k then some v else jget rest k

/-- Is the value a Python container (`dict` or `list`)?  Used by the
`isinstance(v, (dict, list))` checks in the source. -/
def isContainer : Json → Bool
  | .arr _ => true
  | .obj _ => true
  | _ => false

/-- Strip every trailing dot, as Python `s.rstrip(".")` does. -/
def rstripDot (s : String) : String :=
  String.mk ((s.data.reverse.dropWhile (fun c => c == '.')).reverse)

/-- Does the character list contain the two-character substring `[]`? -/
def hasBrkL : List Char → Bool
  | '[' :: ']' :: _ => true
  | _ :: rest => hasBrkL rest
  | [] => false

/-- Python `"[]" in k`: substring test for the array marker. -/
def hasBrackets (s : String) : Bool := hasBrkL s.data

/-- Python `k.endswith("[]")`. -/
def endsWithBrackets (s : String) : Bool :=
  match s.data.reverse with
  | ']' :: '[' :: _ => true
  | _ => false

/-- Remove every (non-overlapping, left-to-right) occurrence of `[]`,
as Python `s.replace("[]", "")` does. -/
def rmBrkL : List Char → List Char
  | '[' :: ']' :: rest => rmBrkL rest
  | c :: rest => c :: rmBrkL rest
  | [] => []

/-- Python `s.replace("[]", "")`. -/
def removeBrackets (s : String) : String := String.mk (rmBrkL s.data)

/-- Python `s.replace(".", "_")` (single-character replacement). -/
def dotToUnderscore (s : String) : String :=
  String.mk (s.data.map (fun c => if c == '.' then '_' else c))

/-- Split a character list at every dot, Python `str.split(".")` semantics
(`"" ↦ [""]`, adjacent dots give empty segments). -/
def splitDotL : List Char → List String
  | [] => [""]
  | c :: rest =>
      let tail := splitDotL rest
      if c == '.' then "" :: tail
      else
        match tail with
        | s :: more => String.mk (c :: s.data) :: more
        | [] => [String.mk [c]]

/-- Python `s.split(".")`. -/
def splitDot (s : String) : List String := splitDotL s.data

/-- First segment of a keypath, Python `k.split(".")[0]`. -/
def headSeg (s : String) : String := (splitDot s).headD ""

/-- Number of dots in a string, Python `k.count(".")`. -/
def countDots (s : String) : Nat := (s.data.filter (fun c => c == '.')).length

/-- `type_of` from CatagorisingJSON.py: structural JSON type name.
The Python `unknown` branch (non-JSON Python objects) is unreachable in this
embedding, because `Json` only represents JSON values. -/
def type_of : Json → String
  | .null => "null"
  | .bool _ => "bool"
  | .num _ => "number"
  | .str _ => "string"
  | .arr _ => "array"
  | .obj _ => "object"

/-- One step of the array-sampling merge in `flatten_json`: append the pairs
of one sampled element, skipping keypaths already seen (`paths_seen`). -/
def mergeStep (acc : List (String × String) × List String)
    (pairs : List (String × String)) : List (String × String) × List String :=
  pairs.foldl
    (fun a p => if p.1 ∈ a.2 then a else (a.1 ++ [p], a.2 ++ [p.1])) acc

mutual

/-- `flatten_json` from CatagorisingJSON.py: list of (keypath, type) pairs.
Arrays contribute a `path[]` node and the merged flattenings of their first
`min(3, length)` elements, first-seen keypath wins. -/
def flattenJson : Json → String → List (String × String)
  | .null, pfx => [(rstripDot pfx, "null")]
  | .bool _, pfx => [(rstripDot pfx, "bool")]
  | .num _, pfx => [(rstripDot pfx, "number")]
  | .str _, pfx => [(rstripDot pfx, "string")]
  | .obj fields, pfx =>
      flattenFields fields (if pfx = "" then "" else pfx ++ ".")
  | .arr elems, pfx =>
      let arrPath := pfx ++ "[]"
      (rstripDot arrPath, "array") ::
        ((flattenTake 3 elems arrPath).foldl mergeStep ([], [])).1

/-- The object branch of `flatten_json`: concatenate the flattenings of the
fields in insertion order (`out.extend(...)` in the source). -/
def flattenFields : JFields → String → List (String × String)
  | .nil, _ => []
  | .cons k v rest, base => flattenJson v (base ++ k) ++ flattenFields rest base

/-- Flattenings of the first `n` array elements (the `range(N)` sampling
loop in the array branch of `flatten_json`). -/
def flattenTake : Nat → JList → String → List (List (String × String))
  | 0, _, _ => []
  | _, .nil, _ => []
  | n + 1, .cons e rest, arrPath =>
      flattenJson e arrPath :: flattenTake n rest arrPath

end

/-- Increment an insertion-ordered counter (Python `Counter[t] += 1`):
an existing key keeps its position, a new key is appended. -/
def bump : List (String × Nat) → String → List (String × Nat)
  | [], t => [(t, 1)]
  | (a, n) :: rest, t =>
      if a = t then (a, n + 1) :: rest else (a, n) :: bump rest t

/-- Increment the counter stored under key `k` in an insertion-ordered
dict of counters (Python `defaultdict(Counter)` update). -/
def bumpOuter : List (String × List (String × Nat)) → String → String →
    List (String × List (String × Nat))
  | [], k, t => [(k, [(t, 1)])]
  | (a, c) :: rest, k, t =>
      if a = k then (a, bump c t) :: rest else (a, c) :: bumpOuter rest k t

/-- First-match association-list lookup (Python dict access). -/
def alookup {α : Type} : List (String × α) → String → Option α
  | [], _ => none
  | (a, v) :: rest, k => if a = k then some v else alookup rest k

/-- A record's clustering signature: keyset plus per-keypath type histogram. -/
structure Sig where
  keys : Finset String
  types : List (String × List (String × Nat))
deriving DecidableEq

/-- `build_signature` from CatagorisingJSON.py: keyset (empty keypaths from a
root scalar are dropped) and per-keypath type counters. -/
def build_signature (d : Json) : Sig :=
  let pairs := flattenJson d ""
  { keys := ((pairs.filter (fun p => p.1 ≠ "")).map (·.1)).toFinset
    types := pairs.foldl
      (fun tc p => if p.1 = "" then tc else bumpOuter tc p.1 p.2) [] }

/-- Dictionary of per-keypath type counters (`Dict[str, Counter]`). -/
abbrev TypeDict := List (String × List (String × Nat))

/-!
Rational arithmetic: Python's float arithmetic on these small ratios is
modelled by exact rationals.  The four helpers below are kernel-computable
spellings of `+`, `-`, `*` and `/` on `ℚ` (they are proved equal to the
field operations in the theorem section); the field operations themselves
are used in the statements.
-/

/-- `a + b` on `ℚ`, computably. -/
def qadd (a b : ℚ) : ℚ := mkRat (a.num * b.den + b.num * a.den) (a.den * b.den)

/-- `a - b` on `ℚ`, computably. -/
def qsub (a b : ℚ) : ℚ := mkRat (a.num * b.den - b.num * a.den) (a.den * b.den)

/-- `a * b` on `ℚ`, computably. -/
def qmul (a b : ℚ) : ℚ := mkRat (a.num * b.num) (a.den * b.den)

/-- `a / n` for a natural denominator, computably. -/
def qdivN (a : ℚ) (n : Nat) : ℚ := mkRat a.num (a.den * n)

/-- `jaccard_distance` from CatagorisingJSON.py, over exact rationals. -/
def jaccard_distance (a b : Finset String) : ℚ :=
  if a.card = 0 ∧ b.card = 0 then 0
  else
    let inter := (a ∩ b).card
    let union := (a ∪ b).card
    qsub 1 (if union ≠ 0 then mkRat (inter : Int) union else 0)

/-- `Counter.most_common(1)[0][0]` on an insertion-ordered counter: the first
key of maximal count (`most_common` sorts by count with a stable sort, so
ties keep insertion order).  Returns `none` on the empty counter, where the
Python expression would raise; the pipeline only builds non-empty counters. -/
def mostCommonKey (c : List (String × Nat)) : Option String :=
  (c.foldl
    (fun best p =>
      match best with
      | none => some p
      | some q => if p.2 > q.2 then some p else best)
    none).map (·.1)

/-- The most common type recorded for keypath `k` (`a_types[k].most_common`). -/
def topAt (t : TypeDict) (k : String) : Option String :=
  mostCommonKey ((alookup t k).getD [])

/-- `type_mismatch_penalty` from CatagorisingJSON.py. -/
def type_mismatch_penalty (ta tb : TypeDict) : ℚ :=
  let overlap := (ta.map (·.1)).toFinset ∩ (tb.map (·.1)).toFinset
  if overlap.card = 0 then 0
  else
    let mismatches := (overlap.filter (fun k => topAt ta k ≠ topAt tb k)).card
    mkRat (mismatches : Int) (max 1 overlap.card)

/-- One off-diagonal entry of the `pairwise_distance` matrix:
`jaccard + 0.3 * penalty`. -/
def distanceOf (sa sb : Sig) : ℚ :=
  qadd (jaccard_distance sa.keys sb.keys)
    (qmul (mkRat 3 10) (type_mismatch_penalty sa.types sb.types))

instance : Inhabited Sig := ⟨{ keys := ∅, types := [] }⟩

/-- The full `pairwise_distance` matrix as a function.  The Python code fills
only `i < j` and mirrors (`D[i,j] = D[j,i]`) over a zero matrix; since
`distanceOf` is symmetric in its arguments, the entry formula below agrees
with the matrix for every `i, j` below the batch size. -/
def pairD (sigs : List Sig) (i j : Nat) : ℚ :=
  if i = j then 0 else distanceOf (sigs.getD i default) (sigs.getD j default)

/-- The character class `[A-Za-z0-9_]` of the sanitiser's regex, written as
the explicit list of characters the range denotes. -/
def wordChars : List Char :=
  "ABCDEFGHIJKLMNOPQRSTUVWXYZabcdefghijklmnopqrstuvwxyz0123456789_".data

/-- Membership in the regex class `[A-Za-z0-9_]`. -/
def isWordChar (c : Char) : Bool := c ∈ wordChars

/-- The ASCII digits.  Python's `str.isdigit` is only ever applied (in
`safe_ident`) to a character already known to be in `[A-Za-z0-9_]`, where it
coincides with membership here. -/
def digitChars : List Char := "0123456789".data

/-- ASCII digit test. -/
def isDigitA (c : Char) : Bool := c ∈ digitChars

/-- The A→a, …, Z→z pairs of ASCII lowercasing. -/
def lowerPairs : List (Char × Char) :=
  "ABCDEFGHIJKLMNOPQRSTUVWXYZ".data.zip "abcdefghijklmnopqrstuvwxyz".data

/-- ASCII lowercasing.  Python's `str.lower` is full Unicode, but in
`safe_ident` it is only applied after the regex substitution, so every
character it sees is in `[A-Za-z0-9_]` (plus the prepended `t_`), where the
two agree. -/
def asciiLower (c : Char) : Char :=
  ((lowerPairs.find? (fun p => p.1 == c)).map (·.2)).getD c

/-- `safe_ident` from Save_Classified_File.py: replace every character
outside `[A-Za-z0-9_]` with `_`; if the result is empty or starts with a
digit, prepend `t_`; lowercase the result. -/
def safe_ident (name : String) : String :=
  let subbed := name.data.map (fun c => if isWordChar c then c else '_')
  let s2 :=
    if subbed.isEmpty || isDigitA (subbed.headD ' ') then 't' :: '_' :: subbed
    else subbed
  String.mk (s2.map asciiLower)

/-- `map_type` from Save_Classified_File.py: JSON type name → SQLite type
(`dict.get` with default `TEXT`). -/
def map_type (t : String) : String :=
  if t = "number" then "REAL"
  else if t = "string" then "TEXT"
  else if t = "bool" then "INTEGER"
  else if t = "null" then "TEXT"
  else if t = "unknown" then "TEXT"
  else "TEXT"

/-- Schema metadata of one keypath (`{"presence": …, "types": …,
"example": …}`).  `presence` is the Python float as a rational, `types` the
insertion-ordered histogram, and `example` the stored example value, with
Python `None` represented by `Json.null` exactly as `json` would serialise
it. -/
structure FieldMeta where
  presence : ℚ
  types : List (String × Nat)
  exampleVal : Json

/-- A schema descriptor: keypath → metadata, in the (sorted) order
`infer_schema` emits. -/
abbrev Schema := List (String × FieldMeta)

/-- `recommend_storage` from CatagorisingJSON.py. -/
def recommend_storage (schema : Schema) : String :=
  let presence := schema.map (fun kv => kv.2.presence)
  let avgPresence : ℚ :=
    if presence.length ≠ 0 then qdivN (presence.foldl qadd 0) presence.length
    else 1
  let arrayFields := (schema.map (·.1)).filter (fun k => hasBrackets k)
  let maxDepth := ((schema.map (·.1)).map countDots).foldr max 0
  let typeDrift : ℚ :=
    mkRat ((schema.filter (fun kv => kv.2.types.length > 1)).length : Int)
      (max 1 schema.length)
  if arrayFields ≠ [] ∨ 3 ≤ maxDepth ∨ typeDrift > mkRat 3 20
      ∨ avgPresence < mkRat 7 10
  then "NoSQL" else "SQL"

/-- Strict lexicographic comparison of character lists by code point
(Python string `<`). -/
def charsLt : List Char → List Char → Bool
  | [], [] => false
  | [], _ :: _ => true
  | _ :: _, [] => false
  | a :: as, b :: bs =>
      decide (a.toNat < b.toNat) || (a == b && charsLt as bs)

/-- Python string `<` (code-point lexicographic). -/
def strLtB (a b : String) : Bool := charsLt a.data b.data

/-- Python string `<=`. -/
def strLeB (a b : String) : Bool := strLtB a b || a == b

/-- Insert into a sorted list of strings (code-point order, as Python
string comparison). -/
def insertSorted (x : String) : List String → List String
  | [] => [x]
  | y :: rest =>
      if strLeB x y then x :: y :: rest else y :: insertSorted x rest

/-- Python `sorted` on a list of (distinct) strings: insertion sort, which
agrees with any correct sort on distinct keys. -/
def sortStr (l : List String) : List String := l.foldr insertSorted []

/-- Keep the first occurrence of each string (used to model Python `set`
comprehensions that are immediately `sorted`). -/
def dedupAux : List String → List String → List String
  | [], _ => []
  | s :: rest, seen =>
      if s ∈ seen then dedupAux rest seen else s :: dedupAux rest (s :: seen)

/-- Distinct strings of a list, first occurrences kept. -/
def dedupStr (l : List String) : List String := dedupAux l []

/-- Python `p[:-2]` (drop the final two characters). -/
def dropLast2 (s : String) : String := String.mk s.data.dropLast.dropLast

/-- Does `s` start with `pat`? (Python `s.startswith(pat)`.) -/
def listLeads : List Char → List Char → Bool
  | [], _ => true
  | _ :: _, [] => false
  | a :: as, b :: bs => a == b && listLeads as bs

/-- Python `s.startswith(pat)`. -/
def strStartsWith (s pat : String) : Bool := listLeads pat.data s.data

/-- Fuelled worker for `replaceRemove`: remove every left-to-right
non-overlapping occurrence of `pat`.  Each step consumes at least one
character, so fuel `l.length` is always enough. -/
def removeSubF (pat : List Char) : Nat → List Char → List Char
  | _, [] => []
  | 0, l => l
  | fuel + 1, c :: rest =>
      if listLeads pat (c :: rest) then
        removeSubF pat fuel (rest.drop (pat.length - 1))
      else c :: removeSubF pat fuel rest

/-- Python `s.replace(pat, "")` for a non-empty pattern (the source only
uses it with patterns of the form `array_root + "."`). -/
def replaceRemove (pat s : String) : String :=
  String.mk (removeSubF pat.data s.data.length s.data)

/-- `get_example_at_path`'s loop over the dot-separated parts.  Python
conflates a failed resolution (`None`) with the JSON value `null`; both are
`Json.null` here, exactly as the source's `None` flows onward. -/
def examplePathGo : Json → List String → Json
  | cur, [] => cur
  | cur, p :: rest =>
      if endsWithBrackets p then
        let p2 := dropLast2 p
        let cur2 :=
          match cur with
          | .obj fields => (jget fields p2).getD .null
          | _ => .null
        match cur2 with
        | .arr (.cons first _) => examplePathGo first rest
        | _ => .null
      else
        match cur with
        | .obj fields => examplePathGo ((jget fields p).getD .null) rest
        | _ => .null

/-- `get_example_at_path` from CatagorisingJSON.py: follow a keypath with
`[]` markers, descending into the first element of arrays; unresolvable
paths give `null`. -/
def get_example_at_path (d : Json) (keypath : String) : Json :=
  examplePathGo d (splitDot keypath)

/-- `_get_by_keypath` from Save_Classified_File.py: plain dotted descent
through objects; a missing key, a `null` on the way, or a non-dict stop the
walk with `None` (= `null` here, the same conflation Python makes). -/
def get_by_keypath : Json → List String → Json
  | cur, [] => cur
  | cur, p :: rest =>
      match cur with
      | .obj fields => get_by_keypath ((jget fields p).getD .null) rest
      | _ => .null

/-- `_get_by_keypath` on a dotted keypath string. -/
def getByKeypath (d : Json) (keypath : String) : Json :=
  get_by_keypath d (splitDot keypath)

/-- The accumulator of `infer_schema`'s main loop: `field_counts`,
`type_counts` and `example_values`, all insertion-ordered. -/
structure InferState where
  fieldCounts : List (String × Nat)
  typeCounts : TypeDict
  examples : List (String × Json)

/-- One `(k, t)` iteration of `infer_schema`'s inner loop over the
flattened pairs of the record `o` (second component: `seen_in_record`). -/
def pairStep (o : Json) (acc : InferState × List String)
    (p : String × String) : InferState × List String :=
  let (st, seen) := acc
  if p.1 = "" then acc
  else
    let tc := bumpOuter st.typeCounts p.1 p.2
    let (fc, seen2) :=
      if p.1 ∈ seen then (st.fieldCounts, seen)
      else (bump st.fieldCounts p.1, seen ++ [p.1])
    let ex :=
      match alookup st.examples p.1 with
      | some _ => st.examples
      | none =>
          let v := get_example_at_path o p.1
          if isContainer v then st.examples else st.examples ++ [(p.1, v)]
    ({ fieldCounts := fc, typeCounts := tc, examples := ex }, seen2)

/-- Process one record of the group (`for i in indices` body). -/
def recordStep (objs : List Json) (st : InferState) (i : Nat) : InferState :=
  let o := objs.getD i .null
  ((flattenJson o "").foldl (pairStep o) (st, [])).1

/-- The accumulator after the whole group. -/
def inferState (objs : List Json) (indices : List Nat) : InferState :=
  indices.foldl (recordStep objs) ⟨[], [], []⟩

/-- `infer_schema` from CatagorisingJSON.py: presence ratio, type histogram
and example value per keypath, sorted by keypath. -/
def infer_schema (objs : List Json) (indices : List Nat) : Schema :=
  let st := inferState objs indices
  let n := indices.length
  (sortStr (st.fieldCounts.map (·.1))).map (fun k =>
    (k,
      { presence := mkRat ((alookup st.fieldCounts k).getD 0 : Int) n
        types := (alookup st.typeCounts k).getD []
        exampleVal := (alookup st.examples k).getD .null }))

/-- Hex digit characters used by `\u00XX` escapes. -/
def hexDigit (n : Nat) : Char := "0123456789abcdef".data.getD n '0'

/-- Digit character of `n < 10`. -/
def digitChar (n : Nat) : Char := "0123456789".data.getD n '0'

/-- Fuelled decimal rendering of a natural number (most significant digit
first); fuel `n + 1` always suffices. -/
def natChars : Nat → Nat → List Char
  | 0, _ => []
  | fuel + 1, n =>
      if n < 10 then [digitChar n]
      else natChars fuel (n / 10) ++ [digitChar (n % 10)]

/-- Decimal rendering of a natural number. -/
def natToChars (n : Nat) : List Char := natChars (n + 1) n

/-- Python `repr` of an integer (as `json.dumps` prints it). -/
def intChars (n : Int) : List Char :=
  if n < 0 then '-' :: natToChars n.natAbs else natToChars n.natAbs

/-- One character of a JSON string, escaped as CPython's
`json.dumps(..., ensure_ascii=False)` does. -/
def escChar (c : Char) : List Char :=
  if c = '\"' then ['\\', '\"']
  else if c = '\\' then ['\\', '\\']
  else if c = '\n' then ['\\', 'n']
  else if c = '\r' then ['\\', 'r']
  else if c = '\t' then ['\\', 't']
  else if c = Char.ofNat 8 then ['\\', 'b']
  else if c = Char.ofNat 12 then ['\\', 'f']
  else if c.toNat < 32 then
    ['\\', 'u', '0', '0', hexDigit (c.toNat / 16), hexDigit (c.toNat % 16)]
  else [c]

/-- Escape a whole string body. -/
def escString (l : List Char) : List Char :=
  l.foldr (fun c acc => escChar c ++ acc) []

mutual

/-- `json.dumps(obj, ensure_ascii=False)` with the default separators
`", "` and `": "`, producing the character list of the serialisation. -/
def jdumpL : Json → List Char
  | .null => "null".data
  | .bool true => "true".data
  | .bool false => "false".data
  | .num n => intChars n
  | .str s => '\"' :: (escString s.data ++ ['\"'])
  | .arr elems => '[' :: jdumpElems elems
  | .obj fields => '\x7b' :: jdumpFields fields

/-- Serialise array elements (including the closing bracket). -/
def jdumpElems : JList → List Char
  | .nil => [']']
  | .cons e rest => jdumpL e ++ jdumpElemsTail rest

/-- Serialise the remaining array elements, each preceded by `", "`. -/
def jdumpElemsTail : JList → List Char
  | .nil => [']']
  | .cons e rest => ',' :: ' ' :: (jdumpL e ++ jdumpElemsTail rest)

/-- Serialise object fields (including the closing brace). -/
def jdumpFields : JFields → List Char
  | .nil => ['\x7d']
  | .cons k v rest =>
      '\"' :: (escString k.data ++ ['\"', ':', ' '] ++ jdumpL v
        ++ jdumpFieldsTail rest)

/-- Serialise the remaining object fields, each preceded by `", "`. -/
def jdumpFieldsTail : JFields → List Char
  | .nil => ['\x7d']
  | .cons k v rest =>
      ',' :: ' ' :: '\"' :: (escString k.data ++ ['\"', ':', ' '] ++ jdumpL v
        ++ jdumpFieldsTail rest)

end

/-- `json.dumps(obj, ensure_ascii=False)` as a string. -/
def jdump (j : Json) : String := String.mk (jdumpL j)

/-- Convert a `JList` back to an ordinary list. -/
def JList.toList : JList → List Json
  | .nil => []
  | .cons e rest => e :: JList.toList rest

/-- The column name/SQLite type pairs `_create_parent_table` generates for
the schema's non-array keypaths, in schema order.  The source types each
column from `next(iter(meta["types"].keys()))` — the first key of the
insertion-ordered histogram. -/
def parentCols (schema : Schema) : List (String × String) :=
  (schema.filter (fun kv => !hasBrackets kv.1)).map (fun kv =>
    (safe_ident (dotToUnderscore kv.1),
      match kv.2.types.head? with
      | some p => map_type p.1
      | none => "TEXT"))

/-- The full column list of the parent table's `CREATE TABLE`. -/
def createParentCols (schema : Schema) : List (String × String) :=
  ("id", "INTEGER PRIMARY KEY AUTOINCREMENT") :: ("raw_json", "TEXT")
    :: parentCols schema

/-- The child-table name `_create_child_table` derives for an array root:
`parent_<base with dots as underscores>`, sanitised as in the `CREATE`
statement. -/
def childTableName (parent arrayRoot : String) : String :=
  safe_ident (parent ++ "_" ++ dotToUnderscore (removeBrackets arrayRoot))

/-- `key.replace(array_root + ".", "")`. -/
def stripRoot (arrayRoot key : String) : String :=
  replaceRemove (arrayRoot ++ ".") key

/-- The scalar columns `_create_child_table` generates: direct subfields of
the array root whose keypath contains no further `[]`. -/
def childCols (arrayRoot : String) (schema : Schema) : List (String × String) :=
  (schema.filter (fun kv =>
    strStartsWith kv.1 (arrayRoot ++ ".") && !hasBrackets kv.1)).map (fun kv =>
      (safe_ident (dotToUnderscore (stripRoot arrayRoot kv.1)),
        match kv.2.types.head? with
        | some p => map_type p.1
        | none => "TEXT"))

/-- The full column list of a child table's `CREATE TABLE`. -/
def createChildCols (parent arrayRoot : String) (schema : Schema) :
    List (String × String) :=
  ("id", "INTEGER PRIMARY KEY AUTOINCREMENT")
    :: (safe_ident parent ++ "_id", "INTEGER") :: ("raw_json", "TEXT")
    :: childCols arrayRoot schema

/-- The parent-table name `save_json_sqlite` uses
(`safe_ident(entity_name or "entity")`). -/
def parentTableName (entity : String) : String :=
  safe_ident (if entity = "" then "entity" else entity)

/-- The tables `save_json_sqlite` creates, in creation order: the parent
table, then one child table per schema keypath that **ends** in `[]`
(`k.endswith("[]")`), taken in sorted key order. -/
def created_tables (entity : String) (schema : Schema) : List String :=
  let parent := parentTableName entity
  safe_ident parent ::
    ((sortStr (schema.map (·.1))).filter (fun k => endsWithBrackets k)).map
      (fun k => childTableName parent k)

/-- A row to be inserted: column names and the corresponding values
(`raw_json` holds serialised text, scalars are stored as the JSON values
they came from). -/
structure Row where
  cols : List String
  vals : List Json

/-- `_insert_parent` from Save_Classified_File.py: the row inserted for one
record.  `raw_json` is always `json.dumps(obj)`; a scalar column is added
for every non-array schema keypath whose value in this record is not a
container. -/
def insert_parent_row (obj : Json) (schema : Schema) : Row :=
  let scalars := schema.filter (fun kv =>
    !hasBrackets kv.1 && !isContainer (getByKeypath obj kv.1))
  { cols := "raw_json" :: scalars.map (fun kv => safe_ident (dotToUnderscore kv.1))
    vals := Json.str (jdump obj) :: scalars.map (fun kv => getByKeypath obj kv.1) }

/-- The row `_insert_children` builds for one array element `el` of the
array rooted at `arrKey`. -/
def child_row (parent : String) (parentId : Int) (arrKey : String)
    (el : Json) (schema : Schema) : Row :=
  let subs := (schema.filter (fun kv =>
    strStartsWith kv.1 (arrKey ++ "."))).filterMap (fun kv =>
      let subKey := stripRoot arrKey kv.1
      let sv := getByKeypath el (removeBrackets subKey)
      if isContainer sv then none
      else some (safe_ident (dotToUnderscore subKey), sv))
  { cols := (safe_ident parent ++ "_id") :: "raw_json" :: subs.map (·.1)
    vals := Json.num parentId :: Json.str (jdump el) :: subs.map (·.2) }

/-- `_insert_children` from Save_Classified_File.py: the (target table,
row) pairs inserted for one record.  The array roots are
`sorted({k.split(".")[0] for k in schema if "[]" in k})`; non-list values
at a root are skipped. -/
def insert_children_rows (parent : String) (parentId : Int) (obj : Json)
    (schema : Schema) : List (String × Row) :=
  let arrays := sortStr (dedupStr
    (((schema.map (·.1)).filter (fun k => hasBrackets k)).map headSeg))
  arrays.foldr (fun arrKey acc =>
    let base := removeBrackets arrKey
    let childTable := parent ++ "_" ++ dotToUnderscore base
    match getByKeypath obj base with
    | .arr elems =>
        (elems.toList.map (fun el =>
          (safe_ident childTable, child_row parent parentId arrKey el schema)))
          ++ acc
    | _ => acc) []

section DBSCAN

variable (n : Nat) (D : Nat → Nat → ℚ) (eps : ℚ) (minPts : Nat)

/-- Modelled from the spec: the clustering itself is performed by the
external library call `DBSCAN(eps=eps, min_samples=min_samples,
metric="precomputed").fit(D)`, whose code is not part of this repository.
Spec §4.4 describes it: the `eps`-neighbourhood of a point (which always
contains the point itself, since the matrix diagonal is zero). -/
def nbrs (i : Nat) : List Nat :=
  (List.range n).filter (fun j => decide (D i j ≤ eps))

/-- Modelled from the spec: a *core point* has at least `minPts` points
(itself included) within `eps`. -/
def isCore (i : Nat) : Bool :=
  decide (minPts ≤ (nbrs n D eps i).length)

/-- One expansion step of density-connectivity: add every core point within
`eps` of a core point already in the set. -/
def coreStep (S : Finset ℕ) : Finset ℕ :=
  S ∪ (Finset.range n).filter (fun j =>
    isCore n D eps minPts j = true ∧
      ∃ k ∈ S, isCore n D eps minPts k = true ∧ D k j ≤ eps)

/-- The density-connected component of `i` over core points, computed as
`n` expansion steps (enough to saturate, since there are only `n` points). -/
def reachSet (i : Nat) : Finset ℕ :=
  (coreStep n D eps minPts)^[n] {i}

/-- Minimum of a finite set of naturals contained in `range bound`: the
first element of `0, …, bound-1` that belongs to the set (default `d` when
none is). -/
def finsetMinD (bound : Nat) (s : Finset ℕ) (d : Nat) : Nat :=
  ((List.range bound).find? (fun m => decide (m ∈ s))).getD d

/-- Modelled from the spec: the DBSCAN label of point `i`.  §4.4: clusters
are formed by transitively connecting core points whose neighbourhoods
overlap; a non-core point within `eps` of a core point joins that core
point's cluster (border point); all other points are noise (`-1`).  Label
*values* are implementation-defined (§3, §4.4: "implementation-defined
integers", only the partition matters); this model canonically labels a
cluster by its minimal member index, and attaches a border point to the
cluster of its first core neighbour in index order (one of the clusters
that can claim it; sklearn picks by discovery order). -/
def dbscanLabel (i : Nat) : Int :=
  if isCore n D eps minPts i then
    Int.ofNat (finsetMinD n (reachSet n D eps minPts i) i)
  else
    match (List.range n).find? (fun j =>
        isCore n D eps minPts j && decide (D i j ≤ eps)) with
    | some j => Int.ofNat (finsetMinD n (reachSet n D eps minPts j) j)
    | none => -1

/-- The per-point label array (`.labels_`). -/
def dbscanLabels : List Int :=
  (List.range n).map (dbscanLabel n D eps minPts)

end DBSCAN

/-- All positions of `labels` holding `lab`
(`clusters[lab]` after the `enumerate` loop). -/
def positionsOf (labels : List Int) (lab : Int) : List Nat :=
  (labels.enum.filter (fun p => p.2 = lab)).map (·.1)

/-- First occurrences of each distinct label, in order of appearance
(Python dict key order of the `defaultdict`). -/
def dedupIntAux : List Int → List Int → List Int
  | [], _ => []
  | s :: rest, seen =>
      if s ∈ seen then dedupIntAux rest seen else s :: dedupIntAux rest (s :: seen)

/-- Distinct labels in first-occurrence order. -/
def dedupInt (l : List Int) : List Int := dedupIntAux l []

/-- The `clusters` mapping of `cluster_json_objects`: label → list of
record indices, keys in first-occurrence order. -/
def groupLabels (labels : List Int) : List (Int × List Nat) :=
  (dedupInt labels).map (fun lab => (lab, positionsOf labels lab))

/-- `cluster_json_objects` from CatagorisingJSON.py.  The sklearn call
`DBSCAN(...).fit(D)` validates its input with `check_array`, which rejects
a matrix with zero samples (`ValueError: Found array with 0 sample(s) …`),
so an empty batch raises; this is modelled by the `Except.error` branch. -/
def cluster_json_objects (objs : List Json) (eps : ℚ := mkRat 7 20)
    (minPts : Nat := 2) :
    Except String (List Int × List (Int × List Nat) × List Sig) :=
  let signatures := objs.map build_signature
  if objs.isEmpty then
    .error "Found array with 0 sample(s) while a minimum of 1 is required by DBSCAN."
  else
    let labels := dbscanLabels objs.length (pairD signatures) eps minPts
    .ok (labels, groupLabels labels, signatures)

/-- ASCII uppercasing (inverse direction of `lowerPairs`). -/
def asciiUpper (c : Char) : Char :=
  ((lowerPairs.find? (fun p => p.2 == c)).map (·.1)).getD c

/-- Python `str.capitalize` on the ASCII range: first character uppercased,
the rest lowercased.  The entity roots it is applied to come from JSON keys;
non-ASCII letters are left unchanged by this model. -/
def capitalizeStr (s : String) : String :=
  match s.data with
  | [] => ""
  | c :: rest => String.mk (asciiUpper c :: rest.map asciiLower)

/-- Python `str.lower` on the ASCII range (used on entity roots). -/
def strToLowerAll (s : String) : String := String.mk (s.data.map asciiLower)

/-- The hand-picked entity-name hints of `propose_entity_names`. -/
def entity_hints : List (String × String) :=
  [("user", "User"), ("person", "Person"), ("customer", "Customer"),
   ("order", "Order"), ("item", "Item"), ("product", "Product"),
   ("sensor", "SensorReading"), ("reading", "SensorReading"),
   ("event", "Event"), ("log", "Log"), ("transaction", "Transaction"),
   ("image", "ImageMeta"), ("video", "VideoMeta"), ("media", "MediaMeta")]

/-- Remove a key from a counter. -/
def removeKey (c : List (String × Nat)) (k : String) : List (String × Nat) :=
  c.filter (fun p => p.1 ≠ k)

/-- `Counter.most_common(n)` keys: repeatedly take the first key of maximal
count (stable ties) and remove it. -/
def topNKeys : Nat → List (String × Nat) → List String
  | 0, _ => []
  | m + 1, c =>
      match mostCommonKey c with
      | none => []
      | some k => k :: topNKeys m (removeKey c k)

/-- `propose_entity_names` from CatagorisingJSON.py. -/
def propose_entity_names (schema : Schema) : List String :=
  let roots := (schema.map (·.1)).map (fun k => removeBrackets (headSeg k))
  let freq := roots.foldl bump []
  let common := topNKeys 3 freq
  let names := common.map (fun r =>
    (alookup entity_hints (strToLowerAll r)).getD (capitalizeStr r))
  dedupStr (if names.isEmpty then ["Entity"] else names)

/-- One value of the result dictionary of `categorize_and_model`. -/
structure ClusterInfo where
  indices : List Nat
  schema : Schema
  storage : String
  entities : List String

/-- Build the result entry for one group of record indices. -/
def clusterEntry (objs : List Json) (idxs : List Nat) : ClusterInfo :=
  let schema := infer_schema objs idxs
  { indices := idxs
    schema := schema
    storage := recommend_storage schema
    entities := propose_entity_names schema }

/-- The body of `categorize_and_model`, generalised over the clustering
parameters (the source fixes `eps = 0.35`, `min_samples = 2` by calling
`cluster_json_objects` with its defaults).  Noise records (`label -1`)
each become their own singleton group. -/
def categorizeWith (objs : List Json) (eps : ℚ) (minPts : Nat) :
    Except String (List Int × List (String × ClusterInfo)) :=
  match cluster_json_objects objs eps minPts with
  | .error e => .error e
  | .ok (labels, clusters, _) =>
      .ok (labels, clusters.foldr (fun g acc =>
        (if g.1 = -1 then
          g.2.map (fun i => ("cluster_single_" ++ toString i, clusterEntry objs [i]))
        else
          [("cluster_" ++ toString g.1, clusterEntry objs g.2)]) ++ acc) [])

/-- `categorize_and_model` from CatagorisingJSON.py (default parameters). -/
def categorize_and_model (objs : List Json) :
    Except String (List Int × List (String × ClusterInfo)) :=
  categorizeWith objs (mkRat 7 20) 2

/-- Two record indices land in the same group of the final partition. -/
def sameGroup (result : List (String × ClusterInfo)) (i j : Nat) : Prop :=
  ∃ e ∈ result, i ∈ e.2.indices ∧ j ∈ e.2.indices

instance (result : List (String × ClusterInfo)) (i j : Nat) :
    Decidable (sameGroup result i j) :=
  inferInstanceAs (Decidable (∃ e ∈ result, i ∈ e.2.indices ∧ j ∈ e.2.indices))

/-- The label array of a successful clustering (empty on error). -/
def labelsOf (r : Except String (List Int × List (String × ClusterInfo))) :
    List Int :=
  match r with
  | .ok p => p.1
  | .error _ => []

/-- The result dictionary of a successful run of the pipeline (empty on
error). -/
def resultOf (r : Except String (List Int × List (String × ClusterInfo))) :
    List (String × ClusterInfo) :=
  match r with
  | .ok p => p.2
  | .error _ => []

/-- Is the value the JSON null? -/
def jIsNull : Json → Bool
  | .null => true
  | _ => false

/-- JSON whitespace accepted between tokens by `json.loads`. -/
def isWs (c : Char) : Bool := c = ' ' ∨ c = '\t' ∨ c = '\n' ∨ c = '\r'

/-- Skip JSON whitespace. -/
def skipWs (l : List Char) : List Char := l.dropWhile isWs

/-- Consume an expected literal tail (e.g. `ull` after `n`). -/
def expectPfx (pat l : List Char) : Option (List Char) :=
  if listLeads pat l then some (l.drop pat.length) else none

/-- Hexadecimal digit values accepted by `\uXXXX` escapes. -/
def hexPairs : List (Char × Nat) :=
  "0123456789abcdef".data.zip (List.range 16)
    ++ "ABCDEF".data.zip ((List.range 6).map (fun k => k + 10))

/-- Value of a hexadecimal digit. -/
def hexVal (c : Char) : Option Nat :=
  (hexPairs.find? (fun p => p.1 == c)).map (·.2)

/-- Parse the body of a JSON string (opening quote already consumed),
decoding the escapes `json.dumps` can produce (plus `\/` and general
`\uXXXX`, which `json.loads` accepts).  Surrogate-pair recombination is not
modelled; `ensure_ascii=False` serialisations never contain surrogate
escapes. -/
def parseStrBody : List Char → Option (List Char × List Char)
  | [] => none
  | '\"' :: rest => some ([], rest)
  | '\\' :: 'n' :: rest =>
      (parseStrBody rest).map (fun pr => ('\n' :: pr.1, pr.2))
  | '\\' :: 'r' :: rest =>
      (parseStrBody rest).map (fun pr => ('\r' :: pr.1, pr.2))
  | '\\' :: 't' :: rest =>
      (parseStrBody rest).map (fun pr => ('\t' :: pr.1, pr.2))
  | '\\' :: 'b' :: rest =>
      (parseStrBody rest).map (fun pr => (Char.ofNat 8 :: pr.1, pr.2))
  | '\\' :: 'f' :: rest =>
      (parseStrBody rest).map (fun pr => (Char.ofNat 12 :: pr.1, pr.2))
  | '\\' :: '\"' :: rest =>
      (parseStrBody rest).map (fun pr => ('\"' :: pr.1, pr.2))
  | '\\' :: '\\' :: rest =>
      (parseStrBody rest).map (fun pr => ('\\' :: pr.1, pr.2))
  | '\\' :: '/' :: rest =>
      (parseStrBody rest).map (fun pr => ('/' :: pr.1, pr.2))
  | '\\' :: 'u' :: h1 :: h2 :: h3 :: h4 :: rest =>
      match hexVal h1, hexVal h2, hexVal h3, hexVal h4 with
      | some a, some b, some c, some d =>
          (parseStrBody rest).map (fun pr =>
            (Char.ofNat (a * 4096 + b * 256 + c * 16 + d) :: pr.1, pr.2))
      | _, _, _, _ => none
  | '\\' :: _ => none
  | c :: rest => (parseStrBody rest).map (fun pr => (c :: pr.1, pr.2))

/-- Leading run of decimal digits. -/
def takeDigits (l : List Char) : List Char × List Char :=
  l.span isDigitA

/-- Numeric value of a digit run (most significant first). -/
def digitsVal (l : List Char) : Nat :=
  l.foldl (fun acc c => acc * 10 + (c.toNat - 48)) 0

/-- Parse a JSON integer (optional minus sign, digit run).  Fractions and
exponents are outside this embedding, which models numbers as integers. -/
def parseIntChars (l : List Char) : Option (Int × List Char) :=
  match l with
  | '-' :: rest =>
      match takeDigits rest with
      | ([], _) => none
      | (ds, rem) => some (-(digitsVal ds : Int), rem)
  | _ =>
      match takeDigits l with
      | ([], _) => none
      | (ds, rem) => some ((digitsVal ds : Int), rem)

mutual

/-- Fuelled recursive-descent parser for one JSON value, the model of
`json.loads` on the serialisations `jdump` produces.  Fuel only bounds the
nesting recursion; `jloads` supplies more than enough. -/
def parseVal : Nat → List Char → Option (Json × List Char)
  | 0, _ => none
  | fuel + 1, input =>
      match skipWs input with
      | [] => none
      | c :: rest =>
          if c = 'n' then (expectPfx "ull".data rest).map (fun r => (.null, r))
          else if c = 't' then
            (expectPfx "rue".data rest).map (fun r => (.bool true, r))
          else if c = 'f' then
            (expectPfx "alse".data rest).map (fun r => (.bool false, r))
          else if c = '\"' then
            (parseStrBody rest).map (fun pr => (.str (String.mk pr.1), pr.2))
          else if c = '[' then
            (parseArr fuel (skipWs rest)).map (fun pr => (.arr pr.1, pr.2))
          else if c = '\x7b' then
            (parseObj fuel (skipWs rest)).map (fun pr => (.obj pr.1, pr.2))
          else (parseIntChars (c :: rest)).map (fun pr => (.num pr.1, pr.2))

/-- Parse an array after `[` (whitespace already skipped). -/
def parseArr : Nat → List Char → Option (JList × List Char)
  | 0, _ => none
  | fuel + 1, input =>
      match input with
      | ']' :: rest => some (.nil, rest)
      | _ => parseArrItems fuel input

/-- Parse one or more comma-separated array elements and the closing `]`. -/
def parseArrItems : Nat → List Char → Option (JList × List Char)
  | 0, _ => none
  | fuel + 1, input =>
      (parseVal fuel input).bind (fun pr =>
        match skipWs pr.2 with
        | ',' :: rem => (parseArrItems fuel rem).map (fun qr => (.cons pr.1 qr.1, qr.2))
        | ']' :: rem => some (.cons pr.1 .nil, rem)
        | _ => none)

/-- Parse an object after the opening brace (whitespace already skipped). -/
def parseObj : Nat → List Char → Option (JFields × List Char)
  | 0, _ => none
  | fuel + 1, input =>
      match input with
      | '\x7d' :: rest => some (.nil, rest)
      | _ => parseObjItems fuel input

/-- Parse one or more `"key": value` fields and the closing brace. -/
def parseObjItems : Nat → List Char → Option (JFields × List Char)
  | 0, _ => none
  | fuel + 1, input =>
      match skipWs input with
      | '\"' :: rest =>
          (parseStrBody rest).bind (fun kr =>
            match skipWs kr.2 with
            | ':' :: rem =>
                (parseVal fuel rem).bind (fun pr =>
                  match skipWs pr.2 with
                  | ',' :: rem2 =>
                      (parseObjItems fuel rem2).map (fun qr =>
                        (.cons (String.mk kr.1) pr.1 qr.1, qr.2))
                  | '\x7d' :: rem2 => some (.cons (String.mk kr.1) pr.1 .nil, rem2)
                  | _ => none)
            | _ => none)
      | _ => none

end

/-- `json.loads`: parse a complete document, allowing trailing whitespace
only. -/
def jloads (s : String) : Option Json :=
  (parseVal (2 * s.data.length + 1) s.data).bind (fun pr =>
    if (skipWs pr.2).isEmpty then some pr.1 else none)

mutual

/-- Structural size of a JSON value (used to reason about parser fuel). -/
def jsizeJ : Json → Nat
  | .null => 1
  | .bool _ => 1
  | .num _ => 1
  | .str _ => 1
  | .arr elems => 1 + jsizeL elems
  | .obj fields => 1 + jsizeF fields

/-- Structural size of an array body. -/
def jsizeL : JList → Nat
  | .nil => 0
  | .cons e rest => 1 + jsizeJ e + jsizeL rest

/-- Structural size of an object body. -/
def jsizeF : JFields → Nat
  | .nil => 0
  | .cons _ v rest => 1 + jsizeJ v + jsizeF rest

end

/-- All (keypath, type) pairs of a record group in processing order, as
`infer_schema` visits them. -/
def groupPairs (objs : List Json) (indices : List Nat) :
    List (String × String) :=
  indices.foldr (fun i acc => flattenJson (objs.getD i .null) "" ++ acc) []

/-- The first type observed for keypath `k` across the group's flattened
pairs, in group processing order. -/
def firstObservedType (objs : List Json) (indices : List Nat) (k : String) :
    Option String :=
  ((groupPairs objs indices).find? (fun p => p.1 == k)).map (·.2)

/-- The pairs of `groupPairs` together with the record they came from. -/
def groupPairsWithObj (objs : List Json) (indices : List Nat) :
    List (Json × String × String) :=
  indices.foldr (fun i acc =>
    ((flattenJson (objs.getD i .null) "").map
      (fun p => (objs.getD i .null, p))) ++ acc) []

/-- The example value `infer_schema` actually stores for keypath `k`:
among the group's occurrences of `k` (in processing order), the first whose
path resolution in its own record yields a non-container value — including
the `null` produced by a failed resolution. -/
def modelExampleValue (objs : List Json) (indices : List Nat) (k : String) :
    Json :=
  ((((groupPairsWithObj objs indices).filter (fun q => q.2.1 == k)).map
      (fun q => get_example_at_path q.1 k)).find?
    (fun v => !isContainer v)).getD .null

/-- The example value the specification describes (spec §4.5): the first
record in group order whose path resolution yields a *scalar* — a
non-container value other than the `null` that marks a failed resolution. -/
def claimExampleValue (objs : List Json) (indices : List Nat) (k : String) :
    Json :=
  ((indices.map (fun i => get_example_at_path (objs.getD i .null) k)).find?
    (fun v => !isContainer v && !jIsNull v)).getD .null

/-- The column type the claim prescribes for a keypath: `map_type` of the
*most common* type of its histogram. -/
def claimColType (meta : FieldMeta) : String :=
  match mostCommonKey meta.types with
  | some t => map_type t
  | none => "TEXT"

/-- The column type the code actually computes
(`next(iter(meta["types"].keys()))`): `map_type` of the *first* key of the
histogram. -/
def codeColType (meta : FieldMeta) : String :=
  match meta.types.head? with
  | some p => map_type p.1
  | none => "TEXT"

/-- The canonical identifier alphabet `[a-z0-9_]` that `safe_ident` is
claimed to produce. -/
def targetChars : List Char := "abcdefghijklmnopqrstuvwxyz0123456789_".data

/-- Membership in `[a-z0-9_]`. -/
def isLowerTarget (c : Char) : Bool := c ∈ targetChars

/-- The continuation after a serialised value never starts with a decimal
digit (it starts with `,`, `]`, a closing brace, whitespace, or is empty);
this is the side condition under which number parsing stops at the right
place. -/
def headND (l : List Char) : Bool :=
  match l with
  | [] => true
  | c :: _ => !isDigitA c

/-!
## Theorems
-/

theorem qadd_eq (a b : ℚ) : qadd a b = a + b := by
  have ha : ((a.den : ℚ)) ≠ 0 := by
    exact_mod_cast a.den_ne_zero
  have hb : ((b.den : ℚ)) ≠ 0 := by
    exact_mod_cast b.den_ne_zero
  conv_rhs => rw [← Rat.num_div_den a, ← Rat.num_div_den b]
  rw [div_add_div _ _ ha hb, qadd, Rat.mkRat_eq_div]
  push_cast
  ring_nf

theorem qsub_eq (a b : ℚ) : qsub a b = a - b := by
  have ha : ((a.den : ℚ)) ≠ 0 := by
    exact_mod_cast a.den_ne_zero
  have hb : ((b.den : ℚ)) ≠ 0 := by
    exact_mod_cast b.den_ne_zero
  conv_rhs => rw [← Rat.num_div_den a, ← Rat.num_div_den b]
  rw [div_sub_div _ _ ha hb, qsub, Rat.mkRat_eq_div]
  push_cast
  ring_nf

theorem qmul_eq (a b : ℚ) : qmul a b = a * b := by
  conv_rhs => rw [← Rat.num_div_den a, ← Rat.num_div_den b]
  rw [div_mul_div_comm, qmul, Rat.mkRat_eq_div]
  push_cast
  ring_nf

theorem qdivN_eq (a : ℚ) (n : Nat) : qdivN a n = a / n := by
  have ha : ((a.den : ℚ)) ≠ 0 := by
    exact_mod_cast a.den_ne_zero
  conv_rhs => rw [← Rat.num_div_den a]
  rw [qdivN, Rat.mkRat_eq_div, div_div]
  push_cast
  ring_nf

theorem jaccard_distance_range (a b : Finset String) :
    0 ≤ jaccard_distance a b ∧ jaccard_distance a b ≤ 1 := by
  rw [jaccard_distance]
  split
  · norm_num
  · next h =>
    rw [qsub_eq]
    have hq : (0 : ℚ) ≤
        (if (a ∪ b).card ≠ 0 then mkRat ((a ∩ b).card : Int) ((a ∪ b).card) else 0) ∧
        (if (a ∪ b).card ≠ 0 then mkRat ((a ∩ b).card : Int) ((a ∪ b).card) else 0) ≤ 1 := by
      split
      · next hu =>
        rw [Rat.mkRat_eq_div]
        have hcard : (a ∩ b).card ≤ (a ∪ b).card :=
          Finset.card_le_card (Finset.inter_subset_union)
        have hupos : (0 : ℚ) < ((a ∪ b).card : ℚ) := by
          exact_mod_cast Nat.pos_of_ne_zero hu
        constructor
        · positivity
        · rw [div_le_one hupos]
          exact_mod_cast hcard
      · norm_num
    constructor
    · linarith [hq.2]
    · linarith [hq.1]

theorem type_mismatch_penalty_range (ta tb : TypeDict) :
    0 ≤ type_mismatch_penalty ta tb ∧ type_mismatch_penalty ta tb ≤ 1 := by
  rw [type_mismatch_penalty]
  split
  · norm_num
  · rw [Rat.mkRat_eq_div]
    set o := ((ta.map (·.1)).toFinset ∩ (tb.map (·.1)).toFinset) with ho
    have hm : (o.filter (fun k => topAt ta k ≠ topAt tb k)).card ≤ max 1 o.card :=
      le_trans (Finset.card_filter_le _ _) (le_max_right _ _)
    have hpos : (0 : ℚ) < ((max 1 o.card : Nat) : ℚ) := by
      have : 1 ≤ max 1 o.card := le_max_left _ _
      exact_mod_cast lt_of_lt_of_le Nat.zero_lt_one this
    constructor
    · positivity
    · rw [div_le_one hpos]
      exact_mod_cast hm

/-- C10: for all signatures `A` and `B`, `jaccard_distance` lies in `[0, 1]`,
`type_mismatch_penalty` lies in `[0, 1]`, and the pairwise distance
`jaccard + 0.3 × penalty` lies in `[0, 1.3]`. -/
theorem C10_distance_range (sa sb : Sig) :
    0 ≤ jaccard_distance sa.keys sb.keys ∧ jaccard_distance sa.keys sb.keys ≤ 1 ∧
    0 ≤ type_mismatch_penalty sa.types sb.types ∧
    type_mismatch_penalty sa.types sb.types ≤ 1 ∧
    0 ≤ distanceOf sa sb ∧ distanceOf sa sb ≤ 13 / 10 := by
  obtain ⟨hj0, hj1⟩ := jaccard_distance_range sa.keys sb.keys
  obtain ⟨hp0, hp1⟩ := type_mismatch_penalty_range sa.types sb.types
  have hd : distanceOf sa sb =
      jaccard_distance sa.keys sb.keys
        + 3 / 10 * type_mismatch_penalty sa.types sb.types := by
    rw [distanceOf, qadd_eq, qmul_eq, Rat.mkRat_eq_div]
    norm_num
  refine ⟨hj0, hj1, hp0, hp1, ?_, ?_⟩
  · rw [hd]; nlinarith
  · rw [hd]; nlinarith

/-- C5 (counterexample): flattening `{"a": [1, 2, 3]}` does *not* yield the
single pair `[("a[]", "array")]` — the first sampled primitive element
contributes a second pair at the array's own path. -/
theorem C5_counterexample :
    flattenJson (jobj [("a", jarr [.num 1, .num 2, .num 3])]) ""
      ≠ [("a[]", "array")] := by decide

/-- C5 (amended): flattening `{"a": [1, 2, 3]}` yields exactly
`[("a[]", "array"), ("a[]", "number")]`: the array node's own pair plus one
pair contributed by the first sampled primitive element (whose keypath is
the array path itself); the remaining primitive elements are deduplicated
by keypath and add nothing. -/
theorem C5_amended :
    flattenJson (jobj [("a", jarr [.num 1, .num 2, .num 3])]) ""
      = [("a[]", "array"), ("a[]", "number")] := by decide

/-- C2: on an empty batch the clustering step raises (sklearn's `check_array`
rejects a 0-sample distance matrix), and therefore `categorize_and_model`
raises as well — neither returns empty structures as the specification
requires. -/
theorem C2_empty_batch_raises :
    cluster_json_objects [] =
      .error "Found array with 0 sample(s) while a minimum of 1 is required by DBSCAN."
    ∧ categorize_and_model [] =
      .error "Found array with 0 sample(s) while a minimum of 1 is required by DBSCAN." :=
  ⟨rfl, rfl⟩

/-- C7: a schema containing any keypath with a `[]` segment is always routed
to NoSQL, regardless of presence, depth and drift. -/
theorem C7_storage_nosql (schema : Schema) (k : String)
    (hk : k ∈ schema.map Prod.fst) (hb : hasBrackets k = true) :
    recommend_storage schema = "NoSQL" := by
  have harr : ((schema.map (·.1)).filter (fun k => hasBrackets k)) ≠ [] :=
    List.ne_nil_of_mem (List.mem_filter.mpr ⟨hk, hb⟩)
  simp only [recommend_storage]
  rw [if_pos (Or.inl harr)]

/-- Witness for C7 at a concrete schema with an array keypath. -/
theorem C7_witness :
    recommend_storage [("tags[]", ⟨1, [("array", 1)], Json.null⟩)] = "NoSQL" :=
  C7_storage_nosql [("tags[]", ⟨1, [("array", 1)], Json.null⟩)] "tags[]"
    (by decide) (by decide)

theorem listMapId {α : Type} (f : α → α) :
    ∀ l : List α, (∀ x ∈ l, f x = x) → l.map f = l
  | [], _ => rfl
  | x :: xs, h => by
      rw [List.map_cons, h x (List.mem_cons_self x xs),
        listMapId f xs (fun y hy => h y (List.mem_cons_of_mem _ hy))]

theorem wordChar_facts : (wordChars.all (fun c =>
    isLowerTarget (asciiLower c) && (isDigitA (asciiLower c) == isDigitA c)))
      = true := by decide

theorem targetChar_facts : (targetChars.all (fun c =>
    (asciiLower c == c) && isWordChar c)) = true := by decide

theorem lower_of_word {c : Char} (h : isWordChar c = true) :
    isLowerTarget (asciiLower c) = true ∧ isDigitA (asciiLower c) = isDigitA c := by
  have hc : c ∈ wordChars := of_decide_eq_true h
  have h2 := List.all_eq_true.mp wordChar_facts c hc
  obtain ⟨h3, h4⟩ := Bool.and_eq_true_iff.mp h2
  exact ⟨h3, eq_of_beq h4⟩

theorem target_fix {c : Char} (h : isLowerTarget c = true) :
    asciiLower c = c ∧ isWordChar c = true := by
  have hc : c ∈ targetChars := of_decide_eq_true h
  have h2 := List.all_eq_true.mp targetChar_facts c hc
  obtain ⟨h3, h4⟩ := Bool.and_eq_true_iff.mp h2
  exact ⟨eq_of_beq h3, h4⟩

theorem subbed_word (s : String) :
    ∀ c ∈ s.data.map (fun c => if isWordChar c then c else '_'),
      isWordChar c = true := by
  intro c hc
  obtain ⟨x, _, hx⟩ := List.mem_map.mp hc
  by_cases hw : isWordChar x = true
  · rw [if_pos hw] at hx
    exact hx ▸ hw
  · rw [if_neg hw] at hx
    exact hx ▸ (by decide : isWordChar '_' = true)

theorem safe_ident_shape (s : String) :
    ∃ l : List Char, safe_ident s = String.mk l ∧ l ≠ [] ∧
      (∀ c ∈ l, isLowerTarget c = true) ∧ isDigitA (l.headD '_') = false := by
  rw [safe_ident]
  set subbed := s.data.map (fun c => if isWordChar c then c else '_') with hsub
  have hword : ∀ c ∈ subbed, isWordChar c = true := subbed_word s
  by_cases hcond : (subbed.isEmpty || isDigitA (subbed.headD ' ')) = true
  · rw [if_pos hcond]
    refine ⟨_, rfl, by simp, ?_, ?_⟩
    · intro c hc
      rcases List.mem_map.mp hc with ⟨x, hx, hlx⟩
      rcases List.mem_cons.mp hx with hx | hx
      · subst hx; exact hlx ▸ (by decide)
      · rcases List.mem_cons.mp hx with hx | hx
        · subst hx; exact hlx ▸ (by decide)
        · exact hlx ▸ (lower_of_word (hword x hx)).1
    · show isDigitA (asciiLower 't') = false
      decide
  · rw [if_neg hcond]
    have hfalse : (subbed.isEmpty || isDigitA (subbed.headD ' ')) = false :=
      Bool.eq_false_iff.mpr hcond
    obtain ⟨hne, hdig⟩ := Bool.or_eq_false_iff.mp hfalse
    refine ⟨_, rfl, ?_, ?_, ?_⟩
    · intro hnil
      rw [List.map_eq_nil_iff] at hnil
      rw [hnil] at hne
      simp at hne
    · intro c hc
      rcases List.mem_map.mp hc with ⟨x, hx, hlx⟩
      exact hlx ▸ (lower_of_word (hword x hx)).1
    · match hs : subbed with
      | [] => simp at hne
      | c :: cs =>
          have hw := (lower_of_word (hword c (List.mem_cons_self c cs))).2
          simp only [List.map_cons, List.headD_cons] at hdig ⊢
          rw [hw]
          exact hdig

theorem safe_ident_of_target (l : List Char) (hne : l ≠ [])
    (hall : ∀ c ∈ l, isLowerTarget c = true)
    (hd : isDigitA (l.headD '_') = false) :
    safe_ident (String.mk l) = String.mk l := by
  rw [safe_ident]
  have hdata : (String.mk l).data = l := rfl
  rw [hdata]
  have hsub : l.map (fun c => if isWordChar c then c else '_') = l :=
    listMapId _ l (fun c hc => if_pos ((target_fix (hall c hc)).2))
  rw [hsub]
  have hemp : l.isEmpty = false := by
    cases l with
    | nil => exact absurd rfl hne
    | cons c cs => rfl
  have hdig : isDigitA (l.headD ' ') = false := by
    cases l with
    | nil => exact absurd rfl hne
    | cons c cs => exact hd
  rw [hemp, hdig]
  simp only [Bool.or_self, Bool.false_or, if_neg (by simp : ¬(false = true))]
  rw [listMapId _ l (fun c hc => (target_fix (hall c hc)).1)]

/-- C9: `safe_ident` always yields a non-empty identifier over `[a-z0-9_]`
that does not start with a digit, and it is idempotent. -/
theorem C9_safe_ident (s : String) :
    safe_ident s ≠ "" ∧
    ((safe_ident s).data.all isLowerTarget) = true ∧
    isDigitA ((safe_ident s).data.headD '_') = false ∧
    safe_ident (safe_ident s) = safe_ident s := by
  obtain ⟨l, hls, hne, hall, hd⟩ := safe_ident_shape s
  refine ⟨?_, ?_, ?_, ?_⟩
  · rw [hls]
    intro h
    have : l = "".data := congrArg String.data h
    exact hne this
  · rw [hls]
    exact List.all_eq_true.mpr hall
  · rw [hls]
    exact hd
  · rw [hls]
    exact safe_ident_of_target l hne hall hd

theorem alookup_append {α : Type} (l1 l2 : List (String × α)) (k : String) :
    alookup (l1 ++ l2) k =
      match alookup l1 k with
      | some v => some v
      | none => alookup l2 k := by
  induction l1 with
  | nil => rfl
  | cons p rest ih =>
      by_cases h : p.1 = k
      · simp [alookup, h]
      · simp [alookup, h, ih]

theorem alookup_bumpOuter_self (tc : TypeDict) (k t : String) :
    alookup (bumpOuter tc k t) k = some (bump ((alookup tc k).getD []) t) := by
  induction tc with
  | nil => simp [bumpOuter, alookup, bump]
  | cons p rest ih =>
      by_cases h : p.1 = k
      · obtain ⟨a, c⟩ := p
        simp only at h
        simp [bumpOuter, alookup, h]
      · obtain ⟨a, c⟩ := p
        simp only at h
        simp [bumpOuter, alookup, h, ih]

theorem alookup_bumpOuter_other (tc : TypeDict) (k t k2 : String) (h : k2 ≠ k) :
    alookup (bumpOuter tc k t) k2 = alookup tc k2 := by
  induction tc with
  | nil => simp [bumpOuter, alookup, Ne.symm h]
  | cons p rest ih =>
      obtain ⟨a, c⟩ := p
      by_cases ha : a = k
      · subst ha
        simp [bumpOuter, alookup, h, Ne.symm h]
      · by_cases hb : a = k2
        · simp [bumpOuter, alookup, ha, hb, h]
        · simp [bumpOuter, alookup, ha, hb, ih]

theorem mem_bump_fst (c : List (String × Nat)) (t : String) :
    ∀ p ∈ bump c t, p ∈ c ∨ p.1 = t := by
  induction c with
  | nil =>
      intro p hp
      simp [bump] at hp
      right
      rw [hp]
  | cons x rest ih =>
      intro p hp
      obtain ⟨a, m⟩ := x
      by_cases h : a = t
      · simp [bump, h] at hp
        rcases hp with hp | hp
        · right; rw [hp]
        · left; exact List.mem_cons_of_mem _ hp
      · simp [bump, h] at hp
        rcases hp with hp | hp
        · left; rw [hp]; exact List.mem_cons_self _ _
        · rcases ih p hp with h2 | h2
          · left; exact List.mem_cons_of_mem _ h2
          · right; exact h2

theorem bump_head_fst (c : List (String × Nat)) (t : String) :
    ((bump c t).head?.map (·.1)) =
      match c with
      | [] => some t
      | x :: _ => some x.1 := by
  cases c with
  | nil => rfl
  | cons x rest =>
      obtain ⟨a, m⟩ := x
      by_cases h : a = t
      · simp [bump, h]
      · simp [bump, h]

theorem bumps_head_fst (ts : List String) :
    ∀ c : List (String × Nat),
      ((ts.foldl bump c).head?.map (·.1)) =
        (match c with
         | [] => ts.head?
         | x :: _ => some x.1) := by
  induction ts with
  | nil =>
      intro c
      cases c <;> rfl
  | cons t ts ih =>
      intro c
      rw [List.foldl_cons, ih (bump c t)]
      cases c with
      | nil => simp [bump]
      | cons x rest =>
          obtain ⟨a, m⟩ := x
          by_cases h : a = t
          · simp [bump, h]
          · simp [bump, h]

theorem find?_eq_filter_head? {α : Type} (p : α → Bool) (l : List α) :
    l.find? p = (l.filter p).head? := by
  induction l with
  | nil => rfl
  | cons x rest ih =>
      by_cases h : p x = true
      · rw [List.find?_cons_of_pos _ h, List.filter_cons_of_pos h, List.head?_cons]
      · simp only [Bool.not_eq_true] at h
        rw [List.find?_cons_of_neg _ (by simp [h]), List.filter_cons_of_neg (by simp [h]), ih]

theorem mem_insertSorted (x a : String) :
    ∀ l : List String, (a ∈ insertSorted x l ↔ a = x ∨ a ∈ l) := by
  intro l
  induction l with
  | nil => simp [insertSorted]
  | cons y rest ih =>
      by_cases h : strLeB x y = true
      · simp [insertSorted, h, List.mem_cons]
      · simp only [insertSorted, h, if_neg]
        simp [List.mem_cons, ih]
        tauto

theorem mem_sortStr (a : String) (l : List String) : a ∈ sortStr l ↔ a ∈ l := by
  induction l with
  | nil => simp [sortStr]
  | cons x rest ih =>
      show a ∈ insertSorted x (sortStr rest) ↔ _
      rw [mem_insertSorted, ih]
      simp [List.mem_cons]

theorem typesFold (k : String) (hk : k ≠ "") :
    ∀ (ps : List (String × String)) (tc : TypeDict),
      alookup (ps.foldl
          (fun tc p => if p.1 = "" then tc else bumpOuter tc p.1 p.2) tc) k
        = if alookup tc k = none ∧ (ps.filter (fun p => p.1 == k)) = [] then none
          else some (((ps.filter (fun p => p.1 == k)).map (·.2)).foldl bump
            ((alookup tc k).getD [])) := by
  intro ps
  induction ps with
  | nil =>
      intro tc
      cases h : alookup tc k with
      | none => simp [h]
      | some c => simp [h]
  | cons p rest ih =>
      intro tc
      obtain ⟨pk, pt⟩ := p
      rw [List.foldl_cons]
      show alookup (List.foldl (fun tc p => if p.1 = "" then tc else bumpOuter tc p.1 p.2)
        (if pk = "" then tc else bumpOuter tc pk pt) rest) k = _
      by_cases hp : pk = ""
      · rw [if_pos hp,
          List.filter_cons_of_neg (by simp; exact fun h0 => hk (h0.symm.trans hp))]
        exact ih tc
      · rw [if_neg hp]
        by_cases hpk : pk = k
        · rw [ih (bumpOuter tc pk pt), hpk, alookup_bumpOuter_self,
            List.filter_cons_of_pos (by simp)]
          rw [if_neg (by simp)]
          rw [if_neg (by simp)]
          simp only [Option.getD_some, List.map_cons, List.foldl_cons]
        · rw [ih (bumpOuter tc pk pt),
            alookup_bumpOuter_other _ _ _ _ (fun h0 => hpk h0.symm),
            List.filter_cons_of_neg (by simp [hpk])]

theorem pairsFold_types (o : Json) (ps : List (String × String)) :
    ∀ (st : InferState) (seen : List String),
      ((ps.foldl (pairStep o) (st, seen)).1).typeCounts
        = ps.foldl (fun tc p => if p.1 = "" then tc else bumpOuter tc p.1 p.2)
            st.typeCounts := by
  induction ps with
  | nil => intro st seen; rfl
  | cons p rest ih =>
      intro st seen
      rw [List.foldl_cons, List.foldl_cons]
      by_cases hp : p.1 = ""
      · rw [if_pos hp]
        have hstep : pairStep o (st, seen) p = (st, seen) := by
          simp [pairStep, hp]
        rw [hstep, ih]
      · rw [if_neg hp]
        have hts : ((pairStep o (st, seen) p).1).typeCounts
            = bumpOuter st.typeCounts p.1 p.2 := by
          simp [pairStep, hp]
        rw [show bumpOuter st.typeCounts p.1 p.2
          = ((pairStep o (st, seen) p).1).typeCounts from hts.symm]
        exact ih (pairStep o (st, seen) p).1 (pairStep o (st, seen) p).2

theorem inferState_types (objs : List Json) (indices : List Nat) :
    (inferState objs indices).typeCounts
      = (groupPairs objs indices).foldl
          (fun tc p => if p.1 = "" then tc else bumpOuter tc p.1 p.2) [] := by
  have main : ∀ (idx : List Nat) (st : InferState),
      (idx.foldl (recordStep objs) st).typeCounts
        = (groupPairs objs idx).foldl
            (fun tc p => if p.1 = "" then tc else bumpOuter tc p.1 p.2)
            st.typeCounts := by
    intro idx
    induction idx with
    | nil => intro st; rfl
    | cons i rest ih =>
        intro st
        rw [List.foldl_cons, ih]
        show _ = ((flattenJson (objs.getD i .null) "" ++ groupPairs objs rest).foldl _ _)
        rw [List.foldl_append]
        rw [show (recordStep objs st i).typeCounts
          = (flattenJson (objs.getD i .null) "").foldl
              (fun tc p => if p.1 = "" then tc else bumpOuter tc p.1 p.2)
              st.typeCounts from pairsFold_types _ _ st []]
  exact main indices ⟨[], [], []⟩

theorem exFold (k : String) (hk : k ≠ "") :
    ∀ (qs : List (Json × String × String)) (ex : List (String × Json)),
      alookup (qs.foldl (fun ex q =>
          if q.2.1 = "" then ex
          else
            match alookup ex q.2.1 with
            | some _ => ex
            | none =>
                if isContainer (get_example_at_path q.1 q.2.1) then ex
                else ex ++ [(q.2.1, get_example_at_path q.1 q.2.1)]) ex) k
      = (match alookup ex k with
         | some v => some v
         | none => (((qs.filter (fun q => q.2.1 == k)).map
             (fun q => get_example_at_path q.1 k)).find? (fun v => !isContainer v))) := by
  intro qs
  induction qs with
  | nil =>
      intro ex
      cases h : alookup ex k with
      | none => simp [h]
      | some v => simp [h]
  | cons q rest ih =>
      intro ex
      obtain ⟨o, pk, pt⟩ := q
      rw [List.foldl_cons]
      by_cases hp : pk = ""
      · have hne : ((o, pk, pt).2.1 == k) = false := by
          simp
          exact fun h0 => hk (h0.symm.trans hp)
        simp only [List.filter_cons, hne, Bool.false_eq_true, if_neg not_false]
        show alookup (List.foldl _ (if pk = "" then ex else _) rest) k = _
        rw [if_pos hp]
        exact ih ex
      · show alookup (List.foldl _
          (if pk = "" then ex
           else match alookup ex pk with
             | some _ => ex
             | none =>
                 if isContainer (get_example_at_path o pk) then ex
                 else ex ++ [(pk, get_example_at_path o pk)]) rest) k = _
        rw [if_neg hp]
        by_cases hpk : pk = k
        · subst hpk
          have hq : ((o, pk, pt).2.1 == pk) = true := by simp
          simp only [List.filter_cons, hq, if_pos rfl]
          cases hl : alookup ex pk with
          | some v =>
              simp only [hl]
              rw [ih ex, hl]
          | none =>
              simp only [hl]
              by_cases hc : isContainer (get_example_at_path o pk) = true
              · rw [if_pos hc, ih ex, hl]
                simp [List.find?_cons, hc]
              · rw [if_neg hc,
                  ih (ex ++ [(pk, get_example_at_path o pk)]),
                  alookup_append]
                rw [hl]
                simp only [alookup, if_pos rfl]
                simp [List.find?_cons, hc]
        · have hne : ((o, pk, pt).2.1 == k) = false := by simp [hpk]
          simp only [List.filter_cons, hne, Bool.false_eq_true, if_neg not_false]
          cases hl : alookup ex pk with
          | some v =>
              simp only [hl]
              exact ih ex
          | none =>
              simp only [hl]
              by_cases hc : isContainer (get_example_at_path o pk) = true
              · rw [if_pos hc]
                exact ih ex
              · rw [if_neg hc, ih (ex ++ [(pk, get_example_at_path o pk)]),
                  alookup_append]
                have : alookup [(pk, get_example_at_path o pk)] k = none := by
                  simp [alookup, hpk]
                rw [this]
                cases h2 : alookup ex k with
                | none => simp
                | some v => simp

theorem pairsFold_examples (o : Json) (ps : List (String × String)) :
    ∀ (st : InferState) (seen : List String),
      ((ps.foldl (pairStep o) (st, seen)).1).examples
        = ps.foldl (fun ex p =>
            if p.1 = "" then ex
            else
              match alookup ex p.1 with
              | some _ => ex
              | none =>
                  if isContainer (get_example_at_path o p.1) then ex
                  else ex ++ [(p.1, get_example_at_path o p.1)]) st.examples := by
  induction ps with
  | nil => intro st seen; rfl
  | cons p rest ih =>
      intro st seen
      rw [List.foldl_cons, List.foldl_cons]
      by_cases hp : p.1 = ""
      · rw [if_pos hp]
        have hstep : pairStep o (st, seen) p = (st, seen) := by
          simp [pairStep, hp]
        rw [hstep, ih]
      · rw [if_neg hp]
        have hex : ((pairStep o (st, seen) p).1).examples
            = (match alookup st.examples p.1 with
               | some _ => st.examples
               | none =>
                   if isContainer (get_example_at_path o p.1) then st.examples
                   else st.examples ++ [(p.1, get_example_at_path o p.1)]) := by
          simp only [pairStep, if_neg hp]
        rw [show (match alookup st.examples p.1 with
               | some _ => st.examples
               | none =>
                   if isContainer (get_example_at_path o p.1) then st.examples
                   else st.examples ++ [(p.1, get_example_at_path o p.1)])
          = ((pairStep o (st, seen) p).1).examples from hex.symm]
        exact ih (pairStep o (st, seen) p).1 (pairStep o (st, seen) p).2

theorem inferState_examples (objs : List Json) (indices : List Nat) :
    (inferState objs indices).examples
      = (groupPairsWithObj objs indices).foldl (fun ex q =>
          if q.2.1 = "" then ex
          else
            match alookup ex q.2.1 with
            | some _ => ex
            | none =>
                if isContainer (get_example_at_path q.1 q.2.1) then ex
                else ex ++ [(q.2.1, get_example_at_path q.1 q.2.1)]) [] := by
  have main : ∀ (idx : List Nat) (st : InferState),
      (idx.foldl (recordStep objs) st).examples
        = (groupPairsWithObj objs idx).foldl (fun ex q =>
            if q.2.1 = "" then ex
            else
              match alookup ex q.2.1 with
              | some _ => ex
              | none =>
                  if isContainer (get_example_at_path q.1 q.2.1) then ex
                  else ex ++ [(q.2.1, get_example_at_path q.1 q.2.1)])
            st.examples := by
    intro idx
    induction idx with
    | nil => intro st; rfl
    | cons i rest ih =>
        intro st
        rw [List.foldl_cons, ih]
        show _ = (((flattenJson (objs.getD i .null) "").map
            (fun p => (objs.getD i .null, p)) ++ groupPairsWithObj objs rest).foldl _ _)
        rw [List.foldl_append, List.foldl_map]
        rw [show (recordStep objs st i).examples
          = (flattenJson (objs.getD i .null) "").foldl (fun ex p =>
              if p.1 = "" then ex
              else
                match alookup ex p.1 with
                | some _ => ex
                | none =>
                    if isContainer (get_example_at_path (objs.getD i .null) p.1) then ex
                    else ex ++ [(p.1, get_example_at_path (objs.getD i .null) p.1)])
              st.examples from pairsFold_examples _ _ st []]
  exact main indices ⟨[], [], []⟩

theorem fieldCounts_keys_ne (objs : List Json) (indices : List Nat) :
    ∀ p ∈ (inferState objs indices).fieldCounts, p.1 ≠ "" := by
  have inner : ∀ (o : Json) (ps : List (String × String)) (st : InferState)
      (seen : List String), (∀ p ∈ st.fieldCounts, p.1 ≠ "") →
      ∀ p ∈ ((ps.foldl (pairStep o) (st, seen)).1).fieldCounts, p.1 ≠ "" := by
    intro o ps
    induction ps with
    | nil => intro st seen h; exact h
    | cons p rest ih =>
        intro st seen h
        rw [List.foldl_cons]
        by_cases hp : p.1 = ""
        · have hstep : pairStep o (st, seen) p = (st, seen) := by
            simp [pairStep, hp]
          rw [hstep]
          exact ih st seen h
        · have hfc : ((pairStep o (st, seen) p).1).fieldCounts = st.fieldCounts
              ∨ ((pairStep o (st, seen) p).1).fieldCounts = bump st.fieldCounts p.1 := by
            by_cases hseen : p.1 ∈ seen
            · left; simp [pairStep, hp, hseen]
            · right; simp [pairStep, hp, hseen]
          have hprop : ∀ q ∈ ((pairStep o (st, seen) p).1).fieldCounts, q.1 ≠ "" := by
            rcases hfc with hfc | hfc
            · rw [hfc]; exact h
            · rw [hfc]
              intro q hq
              rcases mem_bump_fst _ _ q hq with h2 | h2
              · exact h q h2
              · rw [h2]; exact hp
          have := ih (pairStep o (st, seen) p).1 (pairStep o (st, seen) p).2 hprop
          exact this
  have main : ∀ (idx : List Nat) (st : InferState),
      (∀ p ∈ st.fieldCounts, p.1 ≠ "") →
      ∀ p ∈ (idx.foldl (recordStep objs) st).fieldCounts, p.1 ≠ "" := by
    intro idx
    induction idx with
    | nil => intro st h; exact h
    | cons i rest ih =>
        intro st h
        rw [List.foldl_cons]
        exact ih _ (inner (objs.getD i .null) _ st [] h)
  exact main indices ⟨[], [], []⟩ (by simp)

theorem mem_infer_schema (objs : List Json) (indices : List Nat) (k : String)
    (meta : FieldMeta) (h : (k, meta) ∈ infer_schema objs indices) :
    k ≠ "" ∧
    meta = ⟨mkRat ((alookup (inferState objs indices).fieldCounts k).getD 0 : Int)
        indices.length,
      (alookup (inferState objs indices).typeCounts k).getD [],
      (alookup (inferState objs indices).examples k).getD .null⟩ := by
  simp only [infer_schema] at h
  obtain ⟨k2, hk2, heq⟩ := List.mem_map.mp h
  rw [Prod.mk.injEq] at heq
  obtain ⟨h1, h2⟩ := heq
  subst h1
  refine ⟨?_, h2.symm⟩
  rw [mem_sortStr] at hk2
  obtain ⟨p, hp, hpk⟩ := List.mem_map.mp hk2
  exact hpk ▸ fieldCounts_keys_ne objs indices p hp

/-- C4 (amended): the example value `infer_schema` stores for a keypath is
the path-resolution result of the first occurrence of the keypath (in group
processing order) whose resolution yields a non-container value — including
the `null` produced by a failed resolution, which therefore blocks a later
member's scalar. -/
theorem C4_amended (objs : List Json) (indices : List Nat) (k : String)
    (meta : FieldMeta) (h : (k, meta) ∈ infer_schema objs indices) :
    meta.exampleVal = modelExampleValue objs indices k := by
  obtain ⟨hkne, hmeta⟩ := mem_infer_schema objs indices k meta h
  rw [hmeta]
  show (alookup (inferState objs indices).examples k).getD .null = _
  rw [inferState_examples, exFold k hkne]
  rfl

/-- C4 (counterexample): with group `[{"a": [{"x": 1}, {"b": 2}]},
{"a": [{"b": 5}]}]`, the stored example for keypath `a[].b` is `null` (the
first record contains the keypath via sampling, but resolving it lands on
the first array element, which lacks `b`), while the specification's rule —
the first member with a resolvable scalar — gives `5` from the second
record. -/
theorem C4_counterexample :
    ((alookup (infer_schema
        [jobj [("a", jarr [jobj [("x", .num 1)], jobj [("b", .num 2)]])],
         jobj [("a", jarr [jobj [("b", .num 5)]])]] [0, 1]) "a[].b").map
      (·.exampleVal)) = some Json.null
    ∧ claimExampleValue
        [jobj [("a", jarr [jobj [("x", .num 1)], jobj [("b", .num 2)]])],
         jobj [("a", jarr [jobj [("b", .num 5)]])]] [0, 1] "a[].b"
      = Json.num 5
    ∧ Json.null ≠ Json.num 5 :=
  ⟨rfl, rfl, fun h => nomatch h⟩

/-- Witness for C4 at a concrete one-record group. -/
theorem C4_witness :
    (⟨mkRat 1 1, [("number", 1)], Json.num 7⟩ : FieldMeta).exampleVal
      = modelExampleValue [jobj [("a", .num 7)]] [0] "a" :=
  C4_amended [jobj [("a", .num 7)]] [0] "a" ⟨mkRat 1 1, [("number", 1)], Json.num 7⟩
    (List.mem_singleton.mpr rfl)

/-- A successful prefix test exhibits the suffix. -/
theorem listLeads_prefix : ∀ (pat l : List Char), listLeads pat l = true →
    ∃ suf, l = pat ++ suf := by
  intro pat
  induction pat with
  | nil => intro l _; exact ⟨l, rfl⟩
  | cons a as ih =>
      intro l h
      cases l with
      | nil =>
          simp only [listLeads] at h
          exact Bool.noConfusion h
      | cons b bs =>
          simp only [listLeads, Bool.and_eq_true, beq_iff_eq] at h
          obtain ⟨hab, hrest⟩ := h
          obtain ⟨suf, hsuf⟩ := ih bs hrest
          exact ⟨suf, by rw [hab, hsuf, List.cons_append]⟩

/-- A list with an explicit `[]` marker after any prefix contains it. -/
theorem hasBrkL_append (pre suf : List Char) :
    hasBrkL (pre ++ '[' :: ']' :: suf) = true := by
  induction pre with
  | nil => rfl
  | cons c rest ih =>
      rw [List.cons_append, hasBrkL.eq_def]
      split
      · rfl
      · rename_i heq
        injection heq with h1 h2
        rw [← h2]
        exact ih
      · rename_i heq
        injection heq

/-- A string ending in `[]` is some prefix followed by `[]`. -/
theorem endsWithBrackets_shape (s : String) (h : endsWithBrackets s = true) :
    ∃ pre, s.data = pre ++ ['[', ']'] := by
  rw [endsWithBrackets] at h
  split at h
  · rename_i t heq
    refine ⟨t.reverse, ?_⟩
    conv_lhs => rw [← List.reverse_reverse s.data]
    rw [heq]
    simp [List.reverse_cons, List.append_assoc]
  · exact Bool.noConfusion h

/-- The `[]`-skip of `_create_child_table` excludes every keypath under a
bracketed array root, so child tables receive no scalar-subfield columns at
all. -/
theorem childCols_nil (arrayRoot : String) (schema : Schema)
    (h : endsWithBrackets arrayRoot = true) :
    childCols arrayRoot schema = [] := by
  obtain ⟨pre, hpre⟩ := endsWithBrackets_shape arrayRoot h
  rw [childCols]
  rw [List.filter_eq_nil_iff.mpr ?_]
  · rfl
  · intro kv _ hkv
    rw [Bool.and_eq_true, Bool.not_eq_true'] at hkv
    obtain ⟨hstart, hnb⟩ := hkv
    obtain ⟨suf, hsuf⟩ := listLeads_prefix _ _ hstart
    have hdot : (arrayRoot ++ ".").data = arrayRoot.data ++ ['.'] := rfl
    have hdata : kv.1.data = pre ++ '[' :: ']' :: ('.' :: suf) := by
      rw [hsuf, hdot, hpre]
      simp [List.append_assoc, List.cons_append, List.nil_append]
    have : hasBrackets kv.1 = true := by
      rw [hasBrackets, hdata]
      exact hasBrkL_append pre ('.' :: suf)
    rw [this] at hnb
    exact Bool.noConfusion hnb

theorem matchColType (X : Option (String × Nat)) :
    (match X with
     | some p => map_type p.1
     | none => "TEXT")
      = (match X.map (·.1) with
         | some t => map_type t
         | none => "TEXT") := by
  cases X <;> rfl

/-- C1 (amended): every non-array keypath of an inferred schema yields a
parent-table column typed by `map_type` of the keypath's *first observed*
type in group processing order (the head of the insertion-ordered
histogram) — not its most common type.  Child tables, by contrast, never
receive a typed column for a scalar subfield at all: for every array root
the materialiser is invoked with (a schema key ending in `[]`), the `[]`
skip in `_create_child_table` excludes every keypath under that root, so a
child table's `CREATE` holds exactly `id`, the parent foreign key and
`raw_json` — the claim's child-table typing clause is vacuous. -/
theorem C1_amended (objs : List Json) (indices : List Nat) (k : String)
    (meta : FieldMeta) (h : (k, meta) ∈ infer_schema objs indices)
    (hb : hasBrackets k = false) :
    ((safe_ident (dotToUnderscore k),
      match firstObservedType objs indices k with
      | some t => map_type t
      | none => "TEXT") ∈ parentCols (infer_schema objs indices))
    ∧ ∀ parent arrayRoot, endsWithBrackets arrayRoot = true →
        createChildCols parent arrayRoot (infer_schema objs indices)
          = [("id", "INTEGER PRIMARY KEY AUTOINCREMENT"),
             (safe_ident parent ++ "_id", "INTEGER"), ("raw_json", "TEXT")] := by
  constructor
  case right =>
    intro parent arrayRoot har
    rw [createChildCols, childCols_nil arrayRoot _ har]
  obtain ⟨hkne, hmeta⟩ := mem_infer_schema objs indices k meta h
  have hcol : (safe_ident (dotToUnderscore k),
      match meta.types.head? with
      | some p => map_type p.1
      | none => "TEXT") ∈ parentCols (infer_schema objs indices) := by
    apply List.mem_map.mpr
    refine ⟨(k, meta), List.mem_filter.mpr ⟨h, by simp [hb]⟩, rfl⟩
  have htype : (match meta.types.head? with
      | some p => map_type p.1
      | none => "TEXT")
      = (match firstObservedType objs indices k with
         | some t => map_type t
         | none => "TEXT") := by
    have hmt : meta.types
        = (alookup (inferState objs indices).typeCounts k).getD [] := by
      rw [hmeta]
    rw [hmt, inferState_types, typesFold k hkne]
    by_cases hfil : (groupPairs objs indices).filter (fun p => p.1 == k) = []
    · rw [if_pos ⟨rfl, hfil⟩]
      have hfo : firstObservedType objs indices k = none := by
        rw [firstObservedType, find?_eq_filter_head?, hfil]
        rfl
      rw [hfo]
      rfl
    · rw [if_neg (by simp [hfil])]
      have hfo : firstObservedType objs indices k
          = (((groupPairs objs indices).filter (fun p => p.1 == k)).head?).map
              (·.2) := by
        rw [firstObservedType, find?_eq_filter_head?]
      rw [Option.getD_some, matchColType, bumps_head_fst]
      rw [hfo, List.head?_map]
      rfl
  exact htype ▸ hcol

/-- C1 (counterexample): in the group `[{"a": "x"}, {"a": 1}, {"a": 2}]`
the histogram of `a` is `{string: 1, number: 2}` with `string` first;
the generated parent column is typed `TEXT` (first observed type), while
the claim's most-common rule prescribes `REAL`. -/
theorem C1_counterexample :
    parentCols (infer_schema
        [jobj [("a", .str "x")], jobj [("a", .num 1)], jobj [("a", .num 2)]]
        [0, 1, 2]) = [("a", "TEXT")]
    ∧ ((alookup (infer_schema
        [jobj [("a", .str "x")], jobj [("a", .num 1)], jobj [("a", .num 2)]]
        [0, 1, 2]) "a").map claimColType) = some "REAL"
    ∧ "TEXT" ≠ "REAL" := by
  refine ⟨rfl, rfl, by decide⟩

/-- Witness for C1 at a concrete one-record group. -/
theorem C1_witness :
    ((safe_ident (dotToUnderscore "a"),
      match firstObservedType [jobj [("a", .num 7)]] [0] "a" with
      | some t => map_type t
      | none => "TEXT")
      ∈ parentCols (infer_schema [jobj [("a", .num 7)]] [0]))
    ∧ ∀ parent arrayRoot, endsWithBrackets arrayRoot = true →
        createChildCols parent arrayRoot (infer_schema [jobj [("a", .num 7)]] [0])
          = [("id", "INTEGER PRIMARY KEY AUTOINCREMENT"),
             (safe_ident parent ++ "_id", "INTEGER"), ("raw_json", "TEXT")] :=
  C1_amended [jobj [("a", .num 7)]] [0] "a" ⟨mkRat 1 1, [("number", 1)], Json.num 7⟩
    (List.mem_singleton.mpr rfl) (by decide)

theorem mem_of_dedupAux (a : String) :
    ∀ (l seen : List String), a ∈ dedupAux l seen → a ∈ l := by
  intro l
  induction l with
  | nil => intro seen h; exact absurd h (List.not_mem_nil a)
  | cons x rest ih =>
      intro seen h
      by_cases hx : x ∈ seen
      · simp only [dedupAux, if_pos hx] at h
        exact List.mem_cons_of_mem _ (ih seen h)
      · simp only [dedupAux, if_neg hx] at h
        rcases List.mem_cons.mp h with h | h
        · exact h ▸ List.mem_cons_self _ _
        · exact List.mem_cons_of_mem _ (ih (x :: seen) h)

theorem mem_of_dedupStr (a : String) (l : List String) :
    a ∈ dedupStr l → a ∈ l :=
  mem_of_dedupAux a l []

/-- C3 (amended): row insertion targets only the child tables derived from
the *root segment* of an array keypath — so the child table created for a
nested array keypath (e.g. `items[].tags[]`, which does get created) never
receives a row — and every inserted child row carries the full array
element serialised in its `raw_json` value. -/
theorem C3_amended (parent : String) (pid : Int) (obj : Json) (schema : Schema)
    (t : String) (r : Row)
    (h : (t, r) ∈ insert_children_rows parent pid obj schema) :
    (∃ k, k ∈ schema.map Prod.fst ∧ hasBrackets k = true ∧
      t = safe_ident (parent ++ "_" ++ dotToUnderscore (removeBrackets (headSeg k)))) ∧
    ∃ arrKey el, r = child_row parent pid arrKey el schema ∧
      r.vals.get? 1 = some (.str (jdump el)) := by
  have harr : ∀ a ∈ sortStr (dedupStr
      (((schema.map (·.1)).filter (fun k => hasBrackets k)).map headSeg)),
      ∃ k, k ∈ schema.map Prod.fst ∧ hasBrackets k = true ∧ a = headSeg k := by
    intro a ha
    rw [mem_sortStr] at ha
    have ha2 := mem_of_dedupStr a _ ha
    obtain ⟨k, hk, hak⟩ := List.mem_map.mp ha2
    obtain ⟨hk1, hk2⟩ := List.mem_filter.mp hk
    exact ⟨k, hk1, hk2, hak.symm⟩
  revert h
  show (t, r) ∈ (sortStr (dedupStr
      (((schema.map (·.1)).filter (fun k => hasBrackets k)).map headSeg))).foldr
        _ [] → _
  generalize hL : sortStr (dedupStr
      (((schema.map (·.1)).filter (fun k => hasBrackets k)).map headSeg)) = L
  rw [hL] at harr
  clear hL
  induction L with
  | nil => intro h; exact absurd h (List.not_mem_nil _)
  | cons a L ih =>
      intro h
      simp only [List.foldr_cons] at h
      have hP := harr a (List.mem_cons_self a L)
      have harr2 : ∀ b ∈ L, ∃ k, k ∈ schema.map Prod.fst ∧ hasBrackets k = true
          ∧ b = headSeg k := fun b hb => harr b (List.mem_cons_of_mem _ hb)
      revert h
      cases hm : getByKeypath obj (removeBrackets a) with
      | arr elems =>
          intro h
          rcases List.mem_append.mp h with h | h
          · obtain ⟨el, _, hel⟩ := List.mem_map.mp h
            rw [Prod.mk.injEq] at hel
            obtain ⟨ht, hr⟩ := hel
            obtain ⟨k, hk1, hk2, hk3⟩ := hP
            refine ⟨⟨k, hk1, hk2, ?_⟩, a, el, hr.symm, ?_⟩
            · rw [← ht, hk3]
            · rw [← hr]
              rfl
          · exact ih harr2 h
      | null => intro h; exact ih harr2 h
      | bool b => intro h; exact ih harr2 h
      | num n => intro h; exact ih harr2 h
      | str s => intro h; exact ih harr2 h
      | obj fs => intro h; exact ih harr2 h

/-- C3 (counterexample): with a schema holding `items[]`, `items[].id` and
the nested array keypath `items[].tags[]` (two `[]` segments, hence below
the first level), relational materialisation creates a child table
`t_items_tags` for the nested keypath as well — not only tables for array
keypaths directly under the root. -/
theorem C3_counterexample :
    created_tables "t"
        [("items[]", ⟨1, [("array", 1)], .null⟩),
         ("items[].id", ⟨1, [("number", 1)], .num 1⟩),
         ("items[].tags[]", ⟨1, [("array", 1)], .null⟩)]
      = ["t", "t_items", "t_items_tags"]
    ∧ ((splitDot "items[].tags[]").filter (fun s => endsWithBrackets s)).length
        = 2 := by
  exact ⟨by decide, by decide⟩

/-- Witness for C3 at a concrete record and schema. -/
theorem C3_witness :
    (∃ k, k ∈ ([("items[]", (⟨1, [("array", 1)], .null⟩ : FieldMeta)),
         ("items[].id", ⟨1, [("number", 1)], .num 1⟩),
         ("items[].tags[]", ⟨1, [("array", 1)], .null⟩)] : Schema).map Prod.fst ∧
      hasBrackets k = true ∧
      "t_items" = safe_ident ("t" ++ "_" ++ dotToUnderscore (removeBrackets (headSeg k)))) ∧
    ∃ arrKey el,
      child_row "t" 1 "items[]" (jobj [("id", Json.num 1)])
          [("items[]", ⟨1, [("array", 1)], .null⟩),
           ("items[].id", ⟨1, [("number", 1)], .num 1⟩),
           ("items[].tags[]", ⟨1, [("array", 1)], .null⟩)]
        = child_row "t" 1 arrKey el
            [("items[]", ⟨1, [("array", 1)], .null⟩),
             ("items[].id", ⟨1, [("number", 1)], .num 1⟩),
             ("items[].tags[]", ⟨1, [("array", 1)], .null⟩)] ∧
      (child_row "t" 1 "items[]" (jobj [("id", Json.num 1)])
          [("items[]", ⟨1, [("array", 1)], .null⟩),
           ("items[].id", ⟨1, [("number", 1)], .num 1⟩),
           ("items[].tags[]", ⟨1, [("array", 1)], .null⟩)]).vals.get? 1
        = some (.str (jdump el)) :=
  C3_amended "t" 1 (jobj [("items", jarr [jobj [("id", Json.num 1)]])])
    [("items[]", ⟨1, [("array", 1)], .null⟩),
     ("items[].id", ⟨1, [("number", 1)], .num 1⟩),
     ("items[].tags[]", ⟨1, [("array", 1)], .null⟩)]
    "t_items"
    (child_row "t" 1 "items[]" (jobj [("id", Json.num 1)])
      [("items[]", ⟨1, [("array", 1)], .null⟩),
       ("items[].id", ⟨1, [("number", 1)], .num 1⟩),
       ("items[].tags[]", ⟨1, [("array", 1)], .null⟩)])
    (List.mem_singleton.mpr rfl)

section DBSCANLemmas

variable (n : Nat) (D : Nat → Nat → ℚ) (eps : ℚ) (minPts : Nat)

theorem coreStep_subset (S : Finset ℕ) : S ⊆ coreStep n D eps minPts S :=
  Finset.subset_union_left

theorem coreStep_mono {S T : Finset ℕ} (h : S ⊆ T) :
    coreStep n D eps minPts S ⊆ coreStep n D eps minPts T := by
  intro x hx
  rw [coreStep, Finset.mem_union] at hx ⊢
  rcases hx with hx | hx
  · exact Or.inl (h hx)
  · right
    rw [Finset.mem_filter] at hx ⊢
    obtain ⟨hr, hc, k, hk, hkc, hkd⟩ := hx
    exact ⟨hr, hc, k, h hk, hkc, hkd⟩

theorem iterate_coreStep_le {m1 m2 : ℕ} (h : m1 ≤ m2) (S : Finset ℕ) :
    (coreStep n D eps minPts)^[m1] S ⊆ (coreStep n D eps minPts)^[m2] S := by
  induction m2 with
  | zero =>
      have : m1 = 0 := Nat.le_zero.mp h
      rw [this]
  | succ m ih =>
      rcases Nat.lt_or_ge m1 (m + 1) with h2 | h2
      · have h3 := ih (Nat.lt_succ_iff.mp h2)
        refine h3.trans ?_
        rw [Function.iterate_succ_apply']
        exact coreStep_subset n D eps minPts _
      · have : m1 = m + 1 := Nat.le_antisymm h h2
        rw [this]

theorem iterate_coreStep_range (m : ℕ) {S : Finset ℕ}
    (h : S ⊆ Finset.range n) :
    (coreStep n D eps minPts)^[m] S ⊆ Finset.range n := by
  induction m with
  | zero => exact h
  | succ m ih =>
      rw [Function.iterate_succ_apply']
      rw [coreStep]
      exact Finset.union_subset ih (Finset.filter_subset _ _)

theorem stable_of_eq {m : ℕ} {S : Finset ℕ}
    (h : (coreStep n D eps minPts)^[m + 1] S = (coreStep n D eps minPts)^[m] S) :
    ∀ j, m ≤ j →
      (coreStep n D eps minPts)^[j] S = (coreStep n D eps minPts)^[m] S := by
  intro j hj
  induction j, hj using Nat.le_induction with
  | base => rfl
  | succ j hj ih =>
      rw [Function.iterate_succ_apply', ih]
      rw [Function.iterate_succ_apply'] at h
      exact h

theorem reach_fix (i : Nat) (hi : i < n) :
    coreStep n D eps minPts (reachSet n D eps minPts i)
      = reachSet n D eps minPts i := by
  by_contra hne
  have hne2 : (coreStep n D eps minPts)^[n + 1] {i}
      ≠ (coreStep n D eps minPts)^[n] {i} := by
    rw [Function.iterate_succ_apply']
    exact fun h => hne h
  have hstrict : ∀ m, m ≤ n →
      (coreStep n D eps minPts)^[m] {i} ⊂ (coreStep n D eps minPts)^[m + 1] {i} := by
    intro m hm
    refine Finset.ssubset_iff_subset_ne.mpr
      ⟨iterate_coreStep_le n D eps minPts (Nat.le_succ m) {i}, ?_⟩
    intro heq
    exact hne2 (stable_of_eq n D eps minPts heq.symm (n + 1) (Nat.le_succ_of_le hm)
      |>.trans (stable_of_eq n D eps minPts heq.symm n hm).symm)
  have hcard : ∀ m, m ≤ n + 1 →
      m + 1 ≤ ((coreStep n D eps minPts)^[m] {i}).card := by
    intro m
    induction m with
    | zero => intro _; simp
    | succ m ih =>
        intro hm
        have h1 := ih (Nat.le_of_succ_le hm)
        have h2 := Finset.card_lt_card (hstrict m (Nat.lt_succ_iff.mp hm))
        omega
  have hsub : ((coreStep n D eps minPts)^[n + 1] {i}) ⊆ Finset.range n :=
    iterate_coreStep_range n D eps minPts _ (by simp [hi])
  have := Finset.card_le_card hsub
  rw [Finset.card_range] at this
  have := hcard (n + 1) (Nat.le_refl _)
  omega

theorem closed_iterate {T : Finset ℕ}
    (hT : coreStep n D eps minPts T = T) {j : Nat} (hj : j ∈ T) (m : ℕ) :
    (coreStep n D eps minPts)^[m] {j} ⊆ T := by
  induction m with
  | zero => simpa using hj
  | succ m ih =>
      rw [Function.iterate_succ_apply']
      calc coreStep n D eps minPts ((coreStep n D eps minPts)^[m] {j})
          ⊆ coreStep n D eps minPts T := coreStep_mono n D eps minPts ih
        _ = T := hT

theorem self_mem_reach (i : Nat) : i ∈ reachSet n D eps minPts i := by
  have : ({i} : Finset ℕ) ⊆ reachSet n D eps minPts i := by
    have := iterate_coreStep_le n D eps minPts (Nat.zero_le n) ({i} : Finset ℕ)
    simpa [reachSet] using this
  simpa using this ((Finset.mem_singleton_self i))

theorem adj_mem_reach {i j : Nat} (_hi : i < n) (hj : j < n)
    (hci : isCore n D eps minPts i = true) (hcj : isCore n D eps minPts j = true)
    (hd : D i j ≤ eps) : j ∈ reachSet n D eps minPts i := by
  have h1 : j ∈ coreStep n D eps minPts {i} := by
    rw [coreStep, Finset.mem_union]
    right
    rw [Finset.mem_filter]
    exact ⟨Finset.mem_range.mpr hj, hcj, i, Finset.mem_singleton_self i, hci, hd⟩
  have h2 : coreStep n D eps minPts {i} ⊆ reachSet n D eps minPts i := by
    have h3 := iterate_coreStep_le n D eps minPts
      (Nat.one_le_iff_ne_zero.mpr (by omega : n ≠ 0)) ({i} : Finset ℕ)
    simpa [reachSet] using h3
  exact h2 h1

theorem reach_eq_of_adj {i j : Nat} (hi : i < n) (hj : j < n)
    (hci : isCore n D eps minPts i = true) (hcj : isCore n D eps minPts j = true)
    (hdij : D i j ≤ eps) (hdji : D j i ≤ eps) :
    reachSet n D eps minPts i = reachSet n D eps minPts j := by
  apply Finset.Subset.antisymm
  · exact closed_iterate n D eps minPts (reach_fix n D eps minPts j hj)
      (adj_mem_reach n D eps minPts hj hi hcj hci hdji) n
  · exact closed_iterate n D eps minPts (reach_fix n D eps minPts i hi)
      (adj_mem_reach n D eps minPts hi hj hci hcj hdij) n

theorem dbscanLabel_core_eq {i j : Nat} (hi : i < n) (hj : j < n)
    (hci : isCore n D eps minPts i = true) (hcj : isCore n D eps minPts j = true)
    (hdij : D i j ≤ eps) (hdji : D j i ≤ eps) :
    dbscanLabel n D eps minPts i = dbscanLabel n D eps minPts j
      ∧ dbscanLabel n D eps minPts i ≠ -1 := by
  have hre := reach_eq_of_adj n D eps minPts hi hj hci hcj hdij hdji
  rw [dbscanLabel, if_pos hci, dbscanLabel, if_pos hcj]
  have hfind : ((List.range n).find?
      (fun m => decide (m ∈ reachSet n D eps minPts i))).isSome := by
    rw [List.find?_isSome]
    exact ⟨i, List.mem_range.mpr hi, by
      simp [self_mem_reach n D eps minPts i]⟩
  obtain ⟨v, hv⟩ := Option.isSome_iff_exists.mp hfind
  constructor
  · rw [show finsetMinD n (reachSet n D eps minPts i) i = v by
      rw [finsetMinD, hv]; rfl]
    rw [show finsetMinD n (reachSet n D eps minPts j) j = v by
      rw [finsetMinD, ← hre, hv]; rfl]
  · rw [show finsetMinD n (reachSet n D eps minPts i) i = v by
      rw [finsetMinD, hv]; rfl]
    intro hcon
    have h2 : (v : Int) = -1 := by exact_mod_cast hcon
    omega

end DBSCANLemmas

/-- Reading a mapped list at an in-range index with a default. -/
theorem getD_map_of_lt {α β : Type} (f : α → β) (da : α) (db : β)
    (l : List α) (i : Nat) (h : i < l.length) :
    (l.map f).getD i db = f (l.getD i da) := by
  induction l generalizing i with
  | nil => simp at h
  | cons x rest ih =>
      cases i with
      | zero => rfl
      | succ m =>
          simp only [List.map_cons, List.getD_cons_succ]
          exact ih m (by simp only [List.length_cons] at h; omega)

/-- Two signatures with equal keysets and equal dominant type per keypath
are at pairwise distance zero. -/
theorem distanceOf_eq_zero (sa sb : Sig) (hkeys : sa.keys = sb.keys)
    (htops : ∀ k, topAt sa.types k = topAt sb.types k) :
    distanceOf sa sb = 0 := by
  have hj : jaccard_distance sa.keys sb.keys = 0 := by
    rw [hkeys, jaccard_distance]
    split
    · rfl
    · next h =>
      rw [Finset.inter_self, Finset.union_self]
      have hc : sb.keys.card ≠ 0 := fun h0 => h ⟨h0, h0⟩
      dsimp only
      rw [if_pos hc, qsub_eq, Rat.mkRat_eq_div]
      push_cast
      rw [div_self (by exact_mod_cast hc)]
      norm_num
  have hp : type_mismatch_penalty sa.types sb.types = 0 := by
    rw [type_mismatch_penalty]
    split
    · rfl
    · have hfe : ((sa.types.map (·.1)).toFinset ∩ (sb.types.map (·.1)).toFinset).filter
          (fun k => topAt sa.types k ≠ topAt sb.types k) = ∅ :=
        Finset.filter_eq_empty_iff.mpr (by intro k hk hne; exact hne (htops k))
      rw [hfe, Finset.card_empty, Rat.mkRat_eq_div]
      norm_num
  rw [distanceOf, hj, hp, qmul_eq, qadd_eq]
  norm_num

/-- A list containing two distinct naturals has length at least two. -/
theorem two_le_length_of_mem {a b : Nat} {l : List Nat} (hab : a ≠ b)
    (ha : a ∈ l) (hb : b ∈ l) : 2 ≤ l.length := by
  have hsub : ({a, b} : Finset ℕ) ⊆ l.toFinset := by
    intro x hx
    rw [List.mem_toFinset]
    rcases Finset.mem_insert.mp hx with h | h
    · exact h ▸ ha
    · exact (Finset.mem_singleton.mp h) ▸ hb
  have h1 := Finset.card_le_card hsub
  rw [Finset.card_pair hab] at h1
  have h2 := l.toFinset_card_le
  omega

/-- An element of the input that is not yet seen survives label
deduplication. -/
theorem mem_dedupIntAux (a : Int) (l : List Int) :
    ∀ seen, a ∈ l → a ∉ seen → a ∈ dedupIntAux l seen := by
  induction l with
  | nil => intro seen h _; cases h
  | cons s rest ih =>
      intro seen hmem hns
      simp only [dedupIntAux]
      by_cases hs : s ∈ seen
      · rw [if_pos hs]
        rcases List.mem_cons.mp hmem with h | h
        · subst h; exact absurd hs hns
        · exact ih seen h hns
      · rw [if_neg hs]
        by_cases has : a = s
        · subst has; exact List.mem_cons_self a _
        · rcases List.mem_cons.mp hmem with h | h
          · exact absurd h has
          · refine List.mem_cons_of_mem s (ih (s :: seen) h ?_)
            intro hm
            rcases List.mem_cons.mp hm with h2 | h2
            · exact has h2
            · exact hns h2

/-- Every label of the array appears among the deduplicated labels. -/
theorem mem_dedupInt (a : Int) (l : List Int) (h : a ∈ l) : a ∈ dedupInt l :=
  mem_dedupIntAux a l [] h (List.not_mem_nil a)

/-- An index whose label is `lab` appears in `positionsOf labels lab`. -/
theorem mem_positionsOf {labels : List Int} {i : Nat} {lab : Int}
    (h : labels[i]? = some lab) : i ∈ positionsOf labels lab := by
  rw [positionsOf]
  refine List.mem_map.mpr ⟨(i, lab), ?_, rfl⟩
  rw [List.mem_filter]
  exact ⟨List.mk_mem_enum_iff_getElem?.mpr h, by simp⟩

/-- Membership in a fold that concatenates blocks produced per element. -/
theorem mem_foldr_append {α β : Type} (f : α → List β) (l : List α) (b : β)
    (x : α) (hx : x ∈ l) (hb : b ∈ f x) :
    b ∈ l.foldr (fun a acc => f a ++ acc) [] := by
  induction l with
  | nil => cases hx
  | cons y rest ih =>
      rw [List.foldr_cons]
      rcases List.mem_cons.mp hx with h | h
      · subst h; exact List.mem_append.mpr (Or.inl hb)
      · exact List.mem_append.mpr (Or.inr (ih h))

/-- C6 (amended): in the pipeline's clustering (whose `min_samples` is fixed
at 2; the theorem assumes only `minPts ≤ 2`), any two distinct records of
the batch with identical keysets and identical dominant type per keypath
land in the same group of the final partition produced by
`categorize_and_model`'s grouping, whenever `eps ≥ 0`.  The original
claim's weaker hypothesis `batch size ≥ minPts` does not suffice for
`minPts ≥ 3` (see the counterexample). -/
theorem C6_amended (objs : List Json) (eps : ℚ) (minPts : Nat)
    (heps : 0 ≤ eps) (hmp : minPts ≤ 2) (i j : Nat)
    (hi : i < objs.length) (hj : j < objs.length) (hij : i ≠ j)
    (hkeys : (build_signature (objs.getD i .null)).keys
      = (build_signature (objs.getD j .null)).keys)
    (htops : ∀ k, topAt (build_signature (objs.getD i .null)).types k
      = topAt (build_signature (objs.getD j .null)).types k) :
    sameGroup (resultOf (categorizeWith objs eps minPts)) i j := by
  have hgi : (objs.map build_signature).getD i default
      = build_signature (objs.getD i .null) :=
    getD_map_of_lt build_signature Json.null default objs i hi
  have hgj : (objs.map build_signature).getD j default
      = build_signature (objs.getD j .null) :=
    getD_map_of_lt build_signature Json.null default objs j hj
  have hdij : pairD (objs.map build_signature) i j = 0 := by
    rw [pairD, if_neg hij, hgi, hgj]
    exact distanceOf_eq_zero _ _ hkeys htops
  have hdji : pairD (objs.map build_signature) j i = 0 := by
    rw [pairD, if_neg (Ne.symm hij), hgj, hgi]
    exact distanceOf_eq_zero _ _ hkeys.symm (fun k => (htops k).symm)
  have hdii : pairD (objs.map build_signature) i i = 0 := by
    rw [pairD, if_pos rfl]
  have hdjj : pairD (objs.map build_signature) j j = 0 := by
    rw [pairD, if_pos rfl]
  have hcore : ∀ a b : Nat, a < objs.length → b < objs.length → a ≠ b →
      pairD (objs.map build_signature) a a = 0 →
      pairD (objs.map build_signature) a b = 0 →
      isCore objs.length (pairD (objs.map build_signature)) eps minPts a = true := by
    intro a b ha hb hab haa hab0
    have hma : a ∈ nbrs objs.length (pairD (objs.map build_signature)) eps a := by
      rw [nbrs, List.mem_filter]
      exact ⟨List.mem_range.mpr ha, decide_eq_true (by rw [haa]; exact heps)⟩
    have hmb : b ∈ nbrs objs.length (pairD (objs.map build_signature)) eps a := by
      rw [nbrs, List.mem_filter]
      exact ⟨List.mem_range.mpr hb, decide_eq_true (by rw [hab0]; exact heps)⟩
    have hlen := two_le_length_of_mem hab hma hmb
    rw [isCore]
    exact decide_eq_true (le_trans hmp hlen)
  have hci := hcore i j hi hj hij hdii hdij
  have hcj := hcore j i hj hi (Ne.symm hij) hdjj hdji
  obtain ⟨hlabeq, hlabne⟩ :=
    dbscanLabel_core_eq objs.length (pairD (objs.map build_signature)) eps minPts
      hi hj hci hcj (by rw [hdij]; exact heps) (by rw [hdji]; exact heps)
  have hget : ∀ a : Nat, a < objs.length →
      (dbscanLabels objs.length (pairD (objs.map build_signature)) eps minPts)[a]?
        = some (dbscanLabel objs.length (pairD (objs.map build_signature)) eps minPts a) := by
    intro a ha
    rw [dbscanLabels, List.getElem?_map, List.getElem?_range ha]
    rfl
  have hgeti := hget i hi
  have hgetj : (dbscanLabels objs.length (pairD (objs.map build_signature)) eps minPts)[j]?
      = some (dbscanLabel objs.length (pairD (objs.map build_signature)) eps minPts i) := by
    rw [hget j hj, ← hlabeq]
  have hlabmem : dbscanLabel objs.length (pairD (objs.map build_signature)) eps minPts i
      ∈ dbscanLabels objs.length (pairD (objs.map build_signature)) eps minPts :=
    List.getElem?_mem hgeti
  have hgrp : (dbscanLabel objs.length (pairD (objs.map build_signature)) eps minPts i,
      positionsOf (dbscanLabels objs.length (pairD (objs.map build_signature)) eps minPts)
        (dbscanLabel objs.length (pairD (objs.map build_signature)) eps minPts i))
      ∈ groupLabels (dbscanLabels objs.length (pairD (objs.map build_signature)) eps minPts) := by
    rw [groupLabels]
    exact List.mem_map.mpr ⟨_, mem_dedupInt _ _ hlabmem, rfl⟩
  have hposi := mem_positionsOf hgeti
  have hposj := mem_positionsOf hgetj
  have hne0 : objs.isEmpty = false := by
    cases objs with
    | nil => simp at hi
    | cons a l => rfl
  have hcluster : cluster_json_objects objs eps minPts
      = Except.ok (dbscanLabels objs.length (pairD (objs.map build_signature)) eps minPts,
          groupLabels (dbscanLabels objs.length (pairD (objs.map build_signature)) eps minPts),
          objs.map build_signature) := by
    unfold cluster_json_objects
    rw [hne0]
    rfl
  have hres : resultOf (categorizeWith objs eps minPts)
      = (groupLabels (dbscanLabels objs.length (pairD (objs.map build_signature)) eps minPts)).foldr
          (fun g acc =>
            (if g.1 = -1 then
              g.2.map (fun i2 => ("cluster_single_" ++ toString i2, clusterEntry objs [i2]))
            else
              [("cluster_" ++ toString g.1, clusterEntry objs g.2)]) ++ acc) [] := by
    unfold categorizeWith
    rw [hcluster]
    rfl
  have hb : ("cluster_" ++ toString (dbscanLabel objs.length
        (pairD (objs.map build_signature)) eps minPts i),
      clusterEntry objs (positionsOf
        (dbscanLabels objs.length (pairD (objs.map build_signature)) eps minPts)
        (dbscanLabel objs.length (pairD (objs.map build_signature)) eps minPts i)))
      ∈ (if (dbscanLabel objs.length (pairD (objs.map build_signature)) eps minPts i)
            = (-1 : Int) then
          (positionsOf (dbscanLabels objs.length (pairD (objs.map build_signature)) eps minPts)
            (dbscanLabel objs.length (pairD (objs.map build_signature)) eps minPts i)).map
            (fun i2 => ("cluster_single_" ++ toString i2, clusterEntry objs [i2]))
        else
          [("cluster_" ++ toString (dbscanLabel objs.length
              (pairD (objs.map build_signature)) eps minPts i),
            clusterEntry objs (positionsOf
              (dbscanLabels objs.length (pairD (objs.map build_signature)) eps minPts)
              (dbscanLabel objs.length (pairD (objs.map build_signature)) eps minPts i)))]) := by
    rw [if_neg hlabne]
    exact List.mem_singleton.mpr rfl
  rw [hres]
  exact ⟨("cluster_" ++ toString (dbscanLabel objs.length
        (pairD (objs.map build_signature)) eps minPts i),
      clusterEntry objs (positionsOf
        (dbscanLabels objs.length (pairD (objs.map build_signature)) eps minPts)
        (dbscanLabel objs.length (pairD (objs.map build_signature)) eps minPts i))),
    mem_foldr_append _ _ _ _ hgrp hb, hposi, hposj⟩

/-- C6 (counterexample): the original claim quantifies over `minPts` and
assumes only `eps ≥ 0` and batch size ≥ `minPts`.  With `minPts = 3` on the
three-record batch below, records 0 and 1 have identical keysets and
identical dominant types, `eps = 0.35 ≥ 0` and the batch size equals
`minPts`, yet every point is noise (each point has only 2 points within
`eps`), so records 0 and 1 become distinct noise singletons — they land in
different groups of the final partition. -/
theorem C6_counterexample :
    (0 : ℚ) ≤ mkRat 7 20
    ∧ 3 ≤ ([jobj [("a", Json.num 1)], jobj [("a", Json.num 2)],
        jobj [("b", Json.str "x")]] : List Json).length
    ∧ (build_signature (([jobj [("a", Json.num 1)], jobj [("a", Json.num 2)],
        jobj [("b", Json.str "x")]] : List Json).getD 0 .null)).keys
      = (build_signature (([jobj [("a", Json.num 1)], jobj [("a", Json.num 2)],
        jobj [("b", Json.str "x")]] : List Json).getD 1 .null)).keys
    ∧ (build_signature (([jobj [("a", Json.num 1)], jobj [("a", Json.num 2)],
        jobj [("b", Json.str "x")]] : List Json).getD 0 .null)).types
      = (build_signature (([jobj [("a", Json.num 1)], jobj [("a", Json.num 2)],
        jobj [("b", Json.str "x")]] : List Json).getD 1 .null)).types
    ∧ ¬ sameGroup (resultOf (categorizeWith [jobj [("a", Json.num 1)],
        jobj [("a", Json.num 2)], jobj [("b", Json.str "x")]] (mkRat 7 20) 3)) 0 1 :=
  ⟨by decide, by decide, rfl, rfl, by decide⟩

/-- C6 (witness): the amended theorem applied to a concrete two-record batch
with identical signatures, at the pipeline's parameters `eps = 0.35`,
`minPts = 2`: the two records land in the same group. -/
theorem C6_witness :
    sameGroup (resultOf (categorizeWith
      [jobj [("a", Json.num 1)], jobj [("a", Json.num 2)]] (mkRat 7 20) 2)) 0 1 :=
  C6_amended [jobj [("a", Json.num 1)], jobj [("a", Json.num 2)]] (mkRat 7 20) 2
    (by decide) (by decide) 0 1 (by decide) (by decide) (by decide) rfl (fun k => rfl)

/-- Reading a list at any index with a default that is itself a member stays
in the list. -/
theorem getD_mem {l : List Char} {d : Nat} {c : Char} (hc : c ∈ l) :
    l.getD d c ∈ l := by
  rw [List.getD_eq_getElem?_getD]
  cases h : l[d]? with
  | none => simpa using hc
  | some x =>
      have := List.getElem?_mem h
      simpa using this

/-- Digit rendering always produces one of the ten digit characters. -/
theorem digitChar_mem (n : Nat) : digitChar n ∈ digitChars :=
  getD_mem (by decide)

/-- Character-class facts about the ten digit characters, checked by
evaluation. -/
theorem digit_facts : digitChars.all (fun c =>
    isDigitA c && !isWs c && !(c == 'n') && !(c == 't') && !(c == 'f')
      && !(c == '\"') && !(c == '[') && !(c == '\x7b') && !(c == '-')
      && !(c == ']') && !(c == '\x7d') && !(c == ',') && !(c == ':')) = true := by
  decide

/-- The unpacked character-class facts for a digit character. -/
theorem digit_props {c : Char} (h : c ∈ digitChars) :
    isDigitA c = true ∧ isWs c = false ∧ c ≠ 'n' ∧ c ≠ 't' ∧ c ≠ 'f'
      ∧ c ≠ '\"' ∧ c ≠ '[' ∧ c ≠ '\x7b' ∧ c ≠ '-'
      ∧ c ≠ ']' ∧ c ≠ '\x7d' ∧ c ≠ ',' ∧ c ≠ ':' := by
  have hall := digit_facts
  rw [List.all_eq_true] at hall
  have h2 := hall c h
  simp only [Bool.and_eq_true, Bool.not_eq_true', beq_eq_false_iff_ne] at h2
  tauto

/-- Skipping whitespace leaves a list headed by a non-whitespace character
unchanged. -/
theorem skipWs_cons_of {c : Char} (l : List Char) (h : isWs c = false) :
    skipWs (c :: l) = c :: l := by
  rw [skipWs, List.dropWhile_cons, h]
  simp

/-- Skipping whitespace consumes a leading blank. -/
theorem skipWs_ws (l : List Char) : skipWs (' ' :: l) = skipWs l := by
  rw [skipWs, List.dropWhile_cons, show isWs ' ' = true from rfl]
  simp
  rfl

/-- The value parser ignores a leading blank. -/
theorem parseVal_ws (f : Nat) (l : List Char) :
    parseVal f (' ' :: l) = parseVal f l := by
  cases f with
  | zero => rfl
  | succ g => simp only [parseVal, skipWs_ws]

/-- The array-items parser ignores a leading blank. -/
theorem parseArrItems_ws (f : Nat) (l : List Char) :
    parseArrItems f (' ' :: l) = parseArrItems f l := by
  cases f with
  | zero => rfl
  | succ g => simp only [parseArrItems, parseVal_ws]

/-- The object-items parser ignores a leading blank. -/
theorem parseObjItems_ws (f : Nat) (l : List Char) :
    parseObjItems f (' ' :: l) = parseObjItems f l := by
  cases f with
  | zero => rfl
  | succ g => simp only [parseObjItems, skipWs_ws]

/-- The leading digit run of a digit run followed by a non-digit
continuation is the run itself. -/
theorem takeWhile_digits (ds rest : List Char) (hds : ds.all isDigitA = true)
    (hr : headND rest = true) :
    List.takeWhile isDigitA (ds ++ rest) = ds := by
  induction ds with
  | nil =>
      cases rest with
      | nil => rfl
      | cons r rs =>
          have hrd : isDigitA r = false := by
            simpa [headND] using hr
          rw [List.nil_append, List.takeWhile_cons_of_neg (by simp [hrd])]
  | cons d ds' ih =>
      have hd : isDigitA d = true := by
        rw [List.all_eq_true] at hds
        exact hds d (List.mem_cons_self d ds')
      have hds' : ds'.all isDigitA = true := by
        rw [List.all_eq_true] at hds ⊢
        intro x hx
        exact hds x (List.mem_cons_of_mem d hx)
      rw [List.cons_append, List.takeWhile_cons_of_pos hd, ih hds']

/-- Dropping the leading digit run of a digit run followed by a non-digit
continuation leaves the continuation. -/
theorem dropWhile_digits (ds rest : List Char) (hds : ds.all isDigitA = true)
    (hr : headND rest = true) :
    List.dropWhile isDigitA (ds ++ rest) = rest := by
  induction ds with
  | nil =>
      cases rest with
      | nil => rfl
      | cons r rs =>
          have hrd : isDigitA r = false := by
            simpa [headND] using hr
          rw [List.nil_append, List.dropWhile_cons_of_neg (by simp [hrd])]
  | cons d ds' ih =>
      have hd : isDigitA d = true := by
        rw [List.all_eq_true] at hds
        exact hds d (List.mem_cons_self d ds')
      have hds' : ds'.all isDigitA = true := by
        rw [List.all_eq_true] at hds ⊢
        intro x hx
        exact hds x (List.mem_cons_of_mem d hx)
      rw [List.cons_append, List.dropWhile_cons_of_pos hd, ih hds']

/-- The digit scanner splits a digit run followed by a non-digit
continuation exactly at the boundary. -/
theorem takeDigits_append (ds rest : List Char) (hds : ds.all isDigitA = true)
    (hr : headND rest = true) : takeDigits (ds ++ rest) = (ds, rest) := by
  rw [takeDigits, List.span_eq_take_drop]
  rw [takeWhile_digits ds rest hds hr, dropWhile_digits ds rest hds hr]

/-- Appending one more digit multiplies the accumulated value by ten. -/
theorem digitsVal_append_one (ds : List Char) (c : Char) :
    digitsVal (ds ++ [c]) = digitsVal ds * 10 + (c.toNat - 48) := by
  rw [digitsVal, digitsVal, List.foldl_append]
  rfl

/-- Code-point arithmetic of a single rendered digit. -/
theorem digitChar_val {m : Nat} (h : m < 10) : (digitChar m).toNat - 48 = m := by
  interval_cases m <;> decide

/-- Decimal rendering round-trips through the digit scanner's value. -/
theorem digitsVal_natChars : ∀ f n, n < f → digitsVal (natChars f n) = n := by
  intro f
  induction f with
  | zero => intro n h; omega
  | succ f ih =>
      intro n h
      by_cases h10 : n < 10
      · have hstep : natChars (f + 1) n = [digitChar n] := by
          simp only [natChars]
          rw [if_pos h10]
        rw [hstep]
        have hone : digitsVal [digitChar n] = 0 * 10 + ((digitChar n).toNat - 48) := rfl
        rw [hone]
        have hd := digitChar_val h10
        omega
      · have hstep : natChars (f + 1) n = natChars f (n / 10) ++ [digitChar (n % 10)] := by
          simp only [natChars]
          rw [if_neg h10]
        rw [hstep, digitsVal_append_one, ih (n / 10) (by omega)]
        have := digitChar_val (show n % 10 < 10 by omega)
        omega

/-- Digit rendering is a digit character. -/
theorem isDigitA_digitChar (n : Nat) : isDigitA (digitChar n) = true :=
  decide_eq_true (digitChar_mem n)

/-- Every character of a decimal rendering is a digit. -/
theorem natChars_all : ∀ f n, (natChars f n).all isDigitA = true := by
  intro f
  induction f with
  | zero => intro n; rfl
  | succ f ih =>
      intro n
      simp only [natChars]
      by_cases h10 : n < 10
      · rw [if_pos h10]
        simp [isDigitA_digitChar]
      · rw [if_neg h10]
        rw [List.all_append, ih]
        simp [isDigitA_digitChar]

/-- A decimal rendering is non-empty and starts with a digit. -/
theorem natToChars_shape (m : Nat) :
    ∃ c cs, natToChars m = c :: cs ∧ isDigitA c = true := by
  cases h : natToChars m with
  | nil =>
      exfalso
      rw [natToChars] at h
      simp only [natChars] at h
      by_cases h10 : m < 10
      · rw [if_pos h10] at h
        exact absurd h (by simp)
      · rw [if_neg h10] at h
        exact absurd h (by simp)
  | cons c cs =>
      refine ⟨c, cs, rfl, ?_⟩
      have hall := natChars_all (m + 1) m
      rw [show natChars (m + 1) m = natToChars m from rfl, h] at hall
      simp only [List.all_cons, Bool.and_eq_true] at hall
      exact hall.1

/-- The value of a full decimal rendering. -/
theorem digitsVal_natToChars (m : Nat) : digitsVal (natToChars m) = m := by
  rw [natToChars]
  exact digitsVal_natChars (m + 1) m (Nat.lt_succ_self m)

/-- The integer parser inverts the integer printer, stopping exactly at a
non-digit continuation. -/
theorem parseIntChars_dump (n : Int) (rest : List Char) (hr : headND rest = true) :
    parseIntChars (intChars n ++ rest) = some (n, rest) := by
  obtain ⟨c, cs, hnc, hdc⟩ := natToChars_shape n.natAbs
  have hall : (natToChars n.natAbs).all isDigitA = true := natChars_all (n.natAbs + 1) n.natAbs
  have htake : takeDigits (natToChars n.natAbs ++ rest) = (natToChars n.natAbs, rest) :=
    takeDigits_append _ _ hall hr
  by_cases hneg : n < 0
  · have hic : intChars n = '-' :: natToChars n.natAbs := by
      rw [intChars, if_pos hneg]
    rw [hic, List.cons_append]
    simp only [parseIntChars]
    rw [htake, hnc]
    show some (-(digitsVal (c :: cs) : Int), rest) = some (n, rest)
    rw [← hnc, digitsVal_natToChars]
    have hval : -((n.natAbs : Nat) : Int) = n := by omega
    rw [hval]
  · have hic : intChars n = natToChars n.natAbs := by
      rw [intChars, if_neg hneg]
    have hcmem : c ∈ digitChars := of_decide_eq_true hdc
    have hcdash : c ≠ '-' := (digit_props hcmem).2.2.2.2.2.2.2.2.1
    rw [hic, hnc, List.cons_append]
    unfold parseIntChars
    split
    · rename_i r heq
      injection heq with h1 h2
      exact absurd h1 hcdash
    · rw [← List.cons_append, ← hnc, htake, hnc]
      show some ((digitsVal (c :: cs) : Int), rest) = some (n, rest)
      rw [← hnc, digitsVal_natToChars]
      have hval : ((n.natAbs : Nat) : Int) = n := by omega
      rw [hval]

/-- A rendered hex digit parses back to its value. -/
theorem hexVal_hexDigit (v : Nat) (h : v < 16) : hexVal (hexDigit v) = some v := by
  interval_cases v <;> rfl

set_option maxHeartbeats 2000000 in
/-- The string-body parser inverts the serialiser's escaping: an escaped
body followed by the closing quote parses to the original characters, with
the input after the quote untouched. -/
theorem parseStrBody_esc (s tail : List Char) :
    parseStrBody (escString s ++ '\"' :: tail) = some (s, tail) := by
  induction s with
  | nil => rfl
  | cons c cs ih =>
      have hesc : escString (c :: cs) ++ '\"' :: tail
          = escChar c ++ (escString cs ++ '\"' :: tail) := by
        rw [show escString (c :: cs) = escChar c ++ escString cs from rfl,
          List.append_assoc]
      rw [hesc, escChar]
      by_cases h1 : c = '\"'
      · rw [if_pos h1]
        subst h1
        simp only [List.cons_append, List.nil_append]
        simp only [parseStrBody]
        rw [ih]
        rfl
      rw [if_neg h1]
      by_cases h2 : c = '\\'
      · rw [if_pos h2]
        subst h2
        simp only [List.cons_append, List.nil_append]
        simp only [parseStrBody]
        rw [ih]
        rfl
      rw [if_neg h2]
      by_cases h3 : c = '\n'
      · rw [if_pos h3]
        subst h3
        simp only [List.cons_append, List.nil_append]
        simp only [parseStrBody]
        rw [ih]
        rfl
      rw [if_neg h3]
      by_cases h4 : c = '\r'
      · rw [if_pos h4]
        subst h4
        simp only [List.cons_append, List.nil_append]
        simp only [parseStrBody]
        rw [ih]
        rfl
      rw [if_neg h4]
      by_cases h5 : c = '\t'
      · rw [if_pos h5]
        subst h5
        simp only [List.cons_append, List.nil_append]
        simp only [parseStrBody]
        rw [ih]
        rfl
      rw [if_neg h5]
      by_cases h6 : c = Char.ofNat 8
      · rw [if_pos h6]
        subst h6
        simp only [List.cons_append, List.nil_append]
        simp only [parseStrBody]
        rw [ih]
        rfl
      rw [if_neg h6]
      by_cases h7 : c = Char.ofNat 12
      · rw [if_pos h7]
        subst h7
        simp only [List.cons_append, List.nil_append]
        simp only [parseStrBody]
        rw [ih]
        rfl
      rw [if_neg h7]
      by_cases h8 : c.toNat < 32
      · rw [if_pos h8]
        simp only [List.cons_append, List.nil_append]
        simp only [parseStrBody]
        rw [show hexVal '0' = some 0 from rfl,
          hexVal_hexDigit (c.toNat / 16) (by omega),
          hexVal_hexDigit (c.toNat % 16) (by omega)]
        rw [ih]
        show some (Char.ofNat (0 * 4096 + 0 * 256 + c.toNat / 16 * 16 + c.toNat % 16) :: cs,
            tail) = some (c :: cs, tail)
        rw [show 0 * 4096 + 0 * 256 + c.toNat / 16 * 16 + c.toNat % 16 = c.toNat from by omega,
          Char.ofNat_toNat]
      · rw [if_neg h8]
        simp only [List.cons_append, List.nil_append]
        rw [parseStrBody.eq_def]
        split
        all_goals rename_i heq
        all_goals try (injection heq; done)
        all_goals injection heq with hc hrest
        all_goals try (exact absurd hc h1)
        all_goals try (exact absurd hc h2)
        subst hc
        subst hrest
        rw [ih]
        rfl

/-- Structural size of a JSON value is positive. -/
theorem jsizeJ_pos (j : Json) : 1 ≤ jsizeJ j := by
  cases j <;> (simp only [jsizeJ]; omega)

/-- A serialised value is non-empty, starts with a non-whitespace character,
and never starts with a closing bracket. -/
theorem jdumpL_shape (j : Json) :
    ∃ c l, jdumpL j = c :: l ∧ isWs c = false ∧ c ≠ ']' := by
  cases j with
  | null => exact ⟨'n', _, rfl, by decide, by decide⟩
  | bool b =>
      cases b with
      | true => exact ⟨'t', _, rfl, by decide, by decide⟩
      | false => exact ⟨'f', _, rfl, by decide, by decide⟩
  | num n =>
      by_cases hneg : n < 0
      · refine ⟨'-', natToChars n.natAbs, ?_, by decide, by decide⟩
        show intChars n = _
        rw [intChars, if_pos hneg]
      · obtain ⟨c, cs, hnc, hdc⟩ := natToChars_shape n.natAbs
        have hcm : c ∈ digitChars := of_decide_eq_true hdc
        obtain ⟨_, hws, _, _, _, _, _, _, _, hrb, _, _, _⟩ := digit_props hcm
        refine ⟨c, cs, ?_, hws, hrb⟩
        show intChars n = _
        rw [intChars, if_neg hneg, hnc]
  | str s => exact ⟨'\"', _, rfl, by decide, by decide⟩
  | arr elems => exact ⟨'[', _, rfl, by decide, by decide⟩
  | obj fields => exact ⟨'\x7b', _, rfl, by decide, by decide⟩

/-- A serialised array body never starts with whitespace. -/
theorem skipWs_jdumpElems (l : JList) (rest : List Char) :
    skipWs (jdumpElems l ++ rest) = jdumpElems l ++ rest := by
  cases l with
  | nil => rfl
  | cons e r =>
      obtain ⟨c0, l0, hsh, hws, _⟩ := jdumpL_shape e
      show skipWs ((jdumpL e ++ jdumpElemsTail r) ++ rest) = (jdumpL e ++ jdumpElemsTail r) ++ rest
      rw [hsh, List.cons_append, List.cons_append, skipWs_cons_of _ hws]

/-- A serialised object body never starts with whitespace. -/
theorem skipWs_jdumpFields (fl : JFields) (rest : List Char) :
    skipWs (jdumpFields fl ++ rest) = jdumpFields fl ++ rest := by
  cases fl with
  | nil => rfl
  | cons k v r => rfl

/-- One-step reduction of the object-items parser on a quoted key. -/
theorem parseObjItems_quote (f : Nat) (Y : List Char) :
    parseObjItems (f + 1) ('\"' :: Y)
      = (parseStrBody Y).bind (fun kr =>
          match skipWs kr.2 with
          | ':' :: rem =>
              (parseVal f rem).bind (fun pr =>
                match skipWs pr.2 with
                | ',' :: rem2 =>
                    (parseObjItems f rem2).map (fun qr =>
                      (JFields.cons (String.mk kr.1) pr.1 qr.1, qr.2))
                | '\x7d' :: rem2 => some (JFields.cons (String.mk kr.1) pr.1 JFields.nil, rem2)
                | _ => none)
          | _ => none) := rfl

/-- The fuelled parser inverts the serialiser at every syntactic class, for
any fuel at least twice the structural size and any continuation that does
not start with a digit. -/
theorem parse_dump : ∀ fuel : Nat,
    (∀ j rest, 2 * jsizeJ j ≤ fuel → headND rest = true →
      parseVal fuel (jdumpL j ++ rest) = some (j, rest))
    ∧ (∀ l rest, 2 * jsizeL l + 1 ≤ fuel → headND rest = true →
      parseArr fuel (jdumpElems l ++ rest) = some (l, rest))
    ∧ (∀ e r rest, 2 * (1 + jsizeJ e + jsizeL r) - 1 ≤ fuel → headND rest = true →
      parseArrItems fuel (jdumpL e ++ (jdumpElemsTail r ++ rest)) = some (JList.cons e r, rest))
    ∧ (∀ fl rest, 2 * jsizeF fl + 1 ≤ fuel → headND rest = true →
      parseObj fuel (jdumpFields fl ++ rest) = some (fl, rest))
    ∧ (∀ k v r rest, 2 * (1 + jsizeJ v + jsizeF r) - 1 ≤ fuel → headND rest = true →
      parseObjItems fuel (('\"' :: (escString k.data ++ ['\"', ':', ' ']
        ++ jdumpL v ++ jdumpFieldsTail r)) ++ rest) = some (JFields.cons k v r, rest)) := by
  intro fuel
  induction fuel using Nat.strong_induction_on with
  | _ fuel ih =>
    cases fuel with
    | zero =>
        refine ⟨fun j rest hsz _ => absurd hsz (by have := jsizeJ_pos j; omega),
          fun l rest hsz _ => absurd hsz (by omega),
          fun e r rest hsz _ => absurd hsz (by omega),
          fun fl rest hsz _ => absurd hsz (by omega),
          fun k v r rest hsz _ => absurd hsz (by omega)⟩
    | succ F =>
        obtain ⟨hA, hB, hC, hD, hE⟩ := ih F (Nat.lt_succ_self F)
        refine ⟨?_, ?_, ?_, ?_, ?_⟩
        · intro j rest hsz hrest
          cases j with
          | null => rfl
          | bool b => cases b with | true => rfl | false => rfl
          | num n =>
              by_cases hneg : n < 0
              · have hrw : jdumpL (.num n) ++ rest
                    = '-' :: (natToChars n.natAbs ++ rest) := by
                  show intChars n ++ rest = _
                  rw [intChars, if_pos hneg, List.cons_append]
                rw [hrw]
                show (parseIntChars ('-' :: (natToChars n.natAbs ++ rest))).map
                    (fun pr => (Json.num pr.1, pr.2)) = some (Json.num n, rest)
                rw [← List.cons_append,
                  show '-' :: natToChars n.natAbs = intChars n from by
                    rw [intChars, if_pos hneg],
                  parseIntChars_dump n rest hrest]
                rfl
              · obtain ⟨c0, cs0, hnc, hdc⟩ := natToChars_shape n.natAbs
                have hic : intChars n = natToChars n.natAbs := by
                  rw [intChars, if_neg hneg]
                have hcm : c0 ∈ digitChars := of_decide_eq_true hdc
                obtain ⟨_, hws, hn2, ht2, hf2, hq2, hlb2, hob2, _, _, _, _, _⟩ :=
                  digit_props hcm
                have hrw : jdumpL (.num n) ++ rest = c0 :: (cs0 ++ rest) := by
                  show intChars n ++ rest = _
                  rw [hic, hnc, List.cons_append]
                rw [hrw]
                simp only [parseVal]
                rw [skipWs_cons_of _ hws]
                split
                · rename_i heq
                  injection heq
                · rename_i c1 rest1 heq
                  injection heq with hc1 hrest1
                  subst hc1
                  subst hrest1
                  rw [if_neg hn2, if_neg ht2, if_neg hf2, if_neg hq2, if_neg hlb2,
                    if_neg hob2]
                  rw [← List.cons_append, ← hnc, ← hic, parseIntChars_dump n rest hrest]
                  rfl
          | str s =>
              have hrw : jdumpL (.str s) ++ rest
                  = '\"' :: (escString s.data ++ '\"' :: rest) := by
                show ('\"' :: (escString s.data ++ ['\"'])) ++ rest = _
                simp only [List.cons_append, List.append_assoc, List.singleton_append,
                  List.nil_append]
              rw [hrw]
              show (parseStrBody (escString s.data ++ '\"' :: rest)).map
                  (fun pr => (Json.str (String.mk pr.1), pr.2)) = some (Json.str s, rest)
              rw [parseStrBody_esc]
              rfl
          | arr elems =>
              show (parseArr F (skipWs (jdumpElems elems ++ rest))).map
                  (fun pr => (Json.arr pr.1, pr.2)) = some (Json.arr elems, rest)
              rw [skipWs_jdumpElems,
                hB elems rest (by simp only [jsizeJ] at hsz; omega) hrest]
              rfl
          | obj fields =>
              show (parseObj F (skipWs (jdumpFields fields ++ rest))).map
                  (fun pr => (Json.obj pr.1, pr.2)) = some (Json.obj fields, rest)
              rw [skipWs_jdumpFields,
                hD fields rest (by simp only [jsizeJ] at hsz; omega) hrest]
              rfl
        · intro l rest hsz hrest
          cases l with
          | nil => rfl
          | cons e r =>
              obtain ⟨c0, l0, hsh, hws0, hrb0⟩ := jdumpL_shape e
              have hrw : jdumpElems (.cons e r) ++ rest
                  = jdumpL e ++ (jdumpElemsTail r ++ rest) := by
                show (jdumpL e ++ jdumpElemsTail r) ++ rest = _
                rw [List.append_assoc]
              rw [hrw]
              simp only [parseArr]
              split
              · rename_i r2 heq
                rw [hsh, List.cons_append] at heq
                injection heq with hc _
                exact absurd hc hrb0
              · exact hC e r rest (by simp only [jsizeL] at hsz; omega) hrest
        · intro e r rest hsz hrest
          have hndT : headND (jdumpElemsTail r ++ rest) = true := by
            cases r with
            | nil => rfl
            | cons e2 r2 => rfl
          simp only [parseArrItems]
          rw [hA e (jdumpElemsTail r ++ rest) (by omega) hndT]
          cases r with
          | nil => rfl
          | cons e2 r2 =>
              show (parseArrItems F (' ' :: ((jdumpL e2 ++ jdumpElemsTail r2) ++ rest))).map
                  (fun qr => (JList.cons e qr.1, qr.2))
                  = some (JList.cons e (.cons e2 r2), rest)
              rw [parseArrItems_ws, List.append_assoc]
              rw [hC e2 r2 rest (by simp only [jsizeL] at hsz; omega) hrest]
              rfl
        · intro fl rest hsz hrest
          cases fl with
          | nil => rfl
          | cons k v r =>
              show parseObjItems F (jdumpFields (.cons k v r) ++ rest)
                  = some (JFields.cons k v r, rest)
              exact hE k v r rest (by simp only [jsizeF] at hsz; omega) hrest
        · intro k v r rest hsz hrest
          have hndT : headND (jdumpFieldsTail r ++ rest) = true := by
            cases r with
            | nil => rfl
            | cons k2 v2 r2 => rfl
          simp only [List.cons_append, List.append_assoc, List.nil_append]
          rw [parseObjItems_quote, parseStrBody_esc]
          show (parseVal F (' ' :: (jdumpL v ++ (jdumpFieldsTail r ++ rest)))).bind
              (fun pr =>
                match skipWs pr.2 with
                | ',' :: rem2 => (parseObjItems F rem2).map (fun qr =>
                    (JFields.cons (String.mk k.data) pr.1 qr.1, qr.2))
                | '\x7d' :: rem2 =>
                    some (JFields.cons (String.mk k.data) pr.1 JFields.nil, rem2)
                | _ => none) = some (JFields.cons k v r, rest)
          rw [parseVal_ws, hA v (jdumpFieldsTail r ++ rest) (by omega) hndT]
          cases r with
          | nil => rfl
          | cons k2 v2 r2 =>
              show (parseObjItems F (' ' :: (('\"' :: (escString k2.data ++ ['\"', ':', ' ']
                  ++ jdumpL v2 ++ jdumpFieldsTail r2)) ++ rest))).map
                  (fun qr => (JFields.cons k v qr.1, qr.2))
                  = some (JFields.cons k v (.cons k2 v2 r2), rest)
              rw [parseObjItems_ws]
              rw [hE k2 v2 r2 rest (by simp only [jsizeF] at hsz; omega) hrest]
              rfl

mutual

/-- A value's serialisation is at least as long as its structural size. -/
theorem jsizeJ_le_len : ∀ j : Json, jsizeJ j ≤ (jdumpL j).length
  | .null => by decide
  | .bool true => by decide
  | .bool false => by decide
  | .num n => by
      obtain ⟨c, cs, hnc, _⟩ := natToChars_shape n.natAbs
      show 1 ≤ (intChars n).length
      rw [intChars]
      by_cases hneg : n < 0
      · rw [if_pos hneg]
        simp only [List.length_cons]
        omega
      · rw [if_neg hneg, hnc]
        simp only [List.length_cons]
        omega
  | .str s => by
      show 1 ≤ ('\"' :: (escString s.data ++ ['\"'])).length
      simp only [List.length_cons]
      omega
  | .arr elems => by
      have h := jsizeL_le_len elems
      show 1 + jsizeL elems ≤ ('[' :: jdumpElems elems).length
      simp only [List.length_cons]
      omega
  | .obj fields => by
      have h := jsizeF_le_len fields
      show 1 + jsizeF fields ≤ ('\x7b' :: jdumpFields fields).length
      simp only [List.length_cons]
      omega

/-- An array body's serialisation is at least as long as its size. -/
theorem jsizeL_le_len : ∀ l : JList, jsizeL l ≤ (jdumpElems l).length
  | .nil => by decide
  | .cons e r => by
      have h1 := jsizeJ_le_len e
      have h2 := jsizeLT_le_len r
      show 1 + jsizeJ e + jsizeL r ≤ (jdumpL e ++ jdumpElemsTail r).length
      rw [List.length_append]
      omega

/-- A continued array body's serialisation strictly exceeds its size. -/
theorem jsizeLT_le_len : ∀ l : JList, jsizeL l + 1 ≤ (jdumpElemsTail l).length
  | .nil => by decide
  | .cons e r => by
      have h1 := jsizeJ_le_len e
      have h2 := jsizeLT_le_len r
      show 1 + jsizeJ e + jsizeL r + 1
          ≤ (',' :: ' ' :: (jdumpL e ++ jdumpElemsTail r)).length
      simp only [List.length_cons, List.length_append]
      omega

/-- An object body's serialisation is at least as long as its size. -/
theorem jsizeF_le_len : ∀ fl : JFields, jsizeF fl ≤ (jdumpFields fl).length
  | .nil => by decide
  | .cons k v r => by
      have h1 := jsizeJ_le_len v
      have h2 := jsizeFT_le_len r
      show 1 + jsizeJ v + jsizeF r
          ≤ ('\"' :: (escString k.data ++ ['\"', ':', ' '] ++ jdumpL v
              ++ jdumpFieldsTail r)).length
      simp only [List.length_cons, List.length_append]
      omega

/-- A continued object body's serialisation strictly exceeds its size. -/
theorem jsizeFT_le_len : ∀ fl : JFields, jsizeF fl + 1 ≤ (jdumpFieldsTail fl).length
  | .nil => by decide
  | .cons k v r => by
      have h1 := jsizeJ_le_len v
      have h2 := jsizeFT_le_len r
      show 1 + jsizeJ v + jsizeF r + 1
          ≤ (',' :: ' ' :: '\"' :: (escString k.data ++ ['\"', ':', ' '] ++ jdumpL v
              ++ jdumpFieldsTail r)).length
      simp only [List.length_cons, List.length_append]
      omega

end

/-- Deserialising a serialised value recovers it exactly: `json.loads` is a
left inverse of `json.dumps` on this embedding's values. -/
theorem jloads_jdump (j : Json) : jloads (jdump j) = some j := by
  have hlen := jsizeJ_le_len j
  have hjd : (jdump j).data = jdumpL j := rfl
  have hparse := (parse_dump (2 * (jdump j).data.length + 1)).1 j []
    (by rw [hjd]; omega) rfl
  rw [List.append_nil] at hparse
  rw [hjd] at hparse
  rw [jloads, hjd, hparse]
  rfl

/-- C8: for every record inserted via the relational path, the row's first
column is `raw_json`, its stored value is the full serialisation
`json.dumps(obj)` of the original record, and deserialising that text with
`json.loads` yields the record exactly — independent of the schema, and
hence of which scalar columns were also populated. -/
theorem C8_round_trip (obj : Json) (schema : Schema) :
    (insert_parent_row obj schema).cols.head? = some "raw_json"
    ∧ (insert_parent_row obj schema).vals.head? = some (Json.str (jdump obj))
    ∧ jloads (jdump obj) = some obj :=
  ⟨rfl, rfl, jloads_jdump obj⟩
